/-
Verification development for the caching simulator repository
(src/caching.cpp, src/assembler.cpp).

The simulator is shallowly embedded: machine words are natural numbers with
explicit truncation (`% 2 ^ 16`) where the C code relies on `unsigned short`
arithmetic, signed 16-bit views are `Int` values obtained through `toShort`,
and the fallible phase handlers return the `Phase` code exactly as the C
functions do.  A data-memory word `unsigned char [2]` is modelled as a pair
of naturals (the two bytes), a block as the list of its `BLOCK_SIZE` word
pairs, and the block-indexed arrays `data`, `data_cache`, `dictionary` as a
total function from block numbers and as lists whose length plays the role
of the build-time constant `CACHE_BLOCKS`.
-/
import Mathlib

namespace Caching

/-- WORD_SIZE from caching.cpp: bytes per machine word. -/
def WORD_SIZE : ℕ := 2

/-- CODE_SIZE from caching.cpp: words of code memory. -/
def CODE_SIZE : ℕ := 1024

/-- REGISTERS from caching.cpp: number of general purpose registers. -/
def REGISTERS : ℕ := 16

/-- BLOCK_SIZE build parameter (default value 8 words per block). -/
def BLOCK_SIZE : ℕ := 8

/-- DATA_SIZE from caching.cpp: `1024 / BLOCK_SIZE` data blocks. -/
def DATA_SIZE : ℕ := 1024 / BLOCK_SIZE

/-- CACHE_BLOCKS build parameter (default value 1). -/
def CACHE_BLOCKS : ℕ := 1

/-- MEM_FILLER from caching.cpp: the byte used to fill memory at startup. -/
def MEM_FILLER : ℕ := 0xFF

/-- BRANCH_LIMIT from caching.cpp: maximal number of executed branches. -/
def BRANCH_LIMIT : ℕ := 1000000

/-- Macro `addr2tag` from caching.cpp: block index of an address. -/
def addr2tag (addr : ℕ) : ℕ := addr / BLOCK_SIZE

/-- Macro `addr2offset` from caching.cpp: offset of an address in its block. -/
def addr2offset (addr : ℕ) : ℕ := addr % BLOCK_SIZE

/-- A data word, the two bytes `[0]` and `[1]` of `unsigned char [WORD_SIZE]`. -/
def Word : Type := ℕ × ℕ

/-- A memory block: the `BLOCK_SIZE` words of one cache or data block. -/
def Block : Type := List Word

/-- Enum PHASES from caching.cpp: the six machine phases and the three
terminal error codes the state machine may return. -/
inductive Phase where
  | FETCH_INSTR
  | DECODE_INSTR
  | CALCULATE_EA
  | FETCH_OPERANDS
  | EXECUTE_INSTR
  | WRITE_BACK
  | ILLEGAL_OPCODE
  | INFINITE_LOOP
  | ILLEGAL_ADDRESS
deriving DecidableEq, Repr

/-- Struct CACHE_ENTRY from caching.cpp. -/
structure CacheEntry where
  valid : Bool
  dirty : Bool
  ref_count : ℕ
  tag : ℕ
deriving DecidableEq, Repr

instance : Inhabited CacheEntry := ⟨⟨false, false, 0, 0⟩⟩

/-- The cache-related mutable globals of caching.cpp: the dictionary, the
cache payload area `data_cache`, data memory `data` (a total function from
block index to block, standing for `data[DATA_SIZE][BLOCK_SIZE][2]`), and
the statistics counters.  The length of `dict` (kept equal to the length of
`data_cache`) plays the role of `CACHE_BLOCKS`. -/
structure CacheState where
  dict : List CacheEntry
  data_cache : List Block
  data : ℕ → Block
  cache_hits : ℕ
  current_ref_count : ℕ

/-- Entry `dictionary[i]`, with the C convention that an out-of-range read
is never performed by the algorithms (guarded by `i < dict.length`). -/
def entryAt (s : CacheState) (i : ℕ) : CacheEntry := s.dict.getD i default

/-- Function `find_block` of caching.cpp: linear scan of the dictionary for
a valid entry holding `tag`, returning the first matching index. -/
def find_block : List CacheEntry → ℕ → Option ℕ
  | [], _ => none
  | e :: rest, tag =>
      if e.valid = true ∧ e.tag = tag then some 0
      else (find_block rest tag).map (· + 1)

/-- First invalid dictionary index, the scan at the top of `fetch_block`. -/
def scan_invalid : List CacheEntry → Option ℕ
  | [] => none
  | e :: rest =>
      if e.valid = false then some 0
      else (scan_invalid rest).map (· + 1)

/-- Function `write_block` of caching.cpp: if the entry is valid, write its
payload back to memory when dirty and clear the dictionary entry. -/
def write_block (s : CacheState) (block_id : ℕ) : CacheState :=
  let e := s.dict.getD block_id default
  if e.valid = true then
    let s1 :=
      if e.dirty = true then
        { s with data := Function.update s.data e.tag (s.data_cache.getD block_id []) }
      else s
    { s1 with dict := s1.dict.set block_id { e with valid := false, dirty := false, ref_count := 0 } }
  else s

/-- The scan inside `removeLRU` of caching.cpp: fold over the dictionary
carrying `(LRU, block_id)`, starting from `(0xFFFFFFFF, 0)`, updating on
every valid entry whose `ref_count` is strictly below the current minimum.
The second parameter is the index of the list head. -/
def lru_fold : List CacheEntry → ℕ → ℕ × ℕ → ℕ × ℕ
  | [], _, acc => acc
  | e :: rest, i, acc =>
      lru_fold rest (i + 1)
        (if e.valid = true ∧ e.ref_count < acc.1 then (e.ref_count, i) else acc)

/-- Block index chosen by `removeLRU` of caching.cpp. -/
def removeLRU_id (dict : List CacheEntry) : ℕ := (lru_fold dict 0 (0xFFFFFFFF, 0)).2

/-- Function `removeLRU` of caching.cpp: find the LRU block, write it back,
return its id. -/
def removeLRU (s : CacheState) : CacheState × ℕ :=
  let block_id := removeLRU_id s.dict
  (write_block s block_id, block_id)

/-- The fill portion of `fetch_block`: copy block `tag` of data memory into
cache block `block_id` and mark the entry valid, clean and tagged.  The
entry's `ref_count` is left untouched, exactly as in the source. -/
def fill_at (s : CacheState) (block_id tag : ℕ) : CacheState :=
  let s2 := { s with data_cache := s.data_cache.set block_id (s.data tag) }
  let e1 := { (s2.dict.getD block_id default) with valid := true, dirty := false, tag := tag }
  { s2 with dict := s2.dict.set block_id e1 }

/-- Function `fetch_block` of caching.cpp: use the first invalid cache
block, killing the LRU block when none is free, then load block `tag`. -/
def fetch_block (s : CacheState) (tag : ℕ) : CacheState × ℕ :=
  match scan_invalid s.dict with
  | some i => (fill_at s i tag, i)
  | none =>
      let r := removeLRU s
      (fill_at r.1 r.2 tag, r.2)

/-- Function `cache_write` of caching.cpp: range-check the address, ensure
the block is resident (counting a hit when it already is), store the two
bytes of `MDR` at the offset, stamp `ref_count` with `current_ref_count++`,
and mark the entry dirty.  Returns `FETCH_INSTR` on success and
`ILLEGAL_ADDRESS` (state untouched) when the range check fails. -/
def cache_write (s : CacheState) (MAR MDR : ℕ) : Phase × CacheState :=
  let tag := addr2tag MAR
  let offset := addr2offset MAR
  if MAR < DATA_SIZE * BLOCK_SIZE * 2 then
    let r :=
      match find_block s.dict tag with
      | some i => ({ s with cache_hits := s.cache_hits + 1 }, i)
      | none => fetch_block s tag
    let s1 := r.1
    let block_id := r.2
    let blk := s1.data_cache.getD block_id []
    let blk1 := blk.set offset (MDR >>> 8, MDR &&& 0x00ff)
    let s2 := { s1 with data_cache := s1.data_cache.set block_id blk1 }
    let e := s2.dict.getD block_id default
    let e1 := { e with ref_count := s2.current_ref_count, dirty := true }
    let s3 := { s2 with dict := s2.dict.set block_id e1, current_ref_count := s2.current_ref_count + 1 }
    (Phase.FETCH_INSTR, s3)
  else (Phase.ILLEGAL_ADDRESS, s)

/-- Function `cache_read` of caching.cpp: range-check the address, ensure
residency (counting a hit when already resident), read the big-endian word
at the offset into `MDR`, and stamp `ref_count` with `current_ref_count++`.
Returns the next phase, the new cache state, and the (possibly unchanged)
`MDR`. -/
def cache_read (s : CacheState) (MAR MDR : ℕ) : Phase × CacheState × ℕ :=
  let tag := addr2tag MAR
  let offset := addr2offset MAR
  if MAR < DATA_SIZE * BLOCK_SIZE * 2 then
    let r :=
      match find_block s.dict tag with
      | some i => ({ s with cache_hits := s.cache_hits + 1 }, i)
      | none => fetch_block s tag
    let s1 := r.1
    let block_id := r.2
    let w := (s1.data_cache.getD block_id []).getD offset (0, 0)
    let mdr := (w.1 <<< 8) ||| w.2
    let e := s1.dict.getD block_id default
    let e1 := { e with ref_count := s1.current_ref_count }
    let s2 := { s1 with dict := s1.dict.set block_id e1, current_ref_count := s1.current_ref_count + 1 }
    (Phase.WRITE_BACK, s2, mdr)
  else (Phase.ILLEGAL_ADDRESS, s, MDR)

/-- Macro `opcode()` from caching.cpp: top three bits of `IR[0]`. -/
def opcode (IR0 : ℕ) : ℕ := IR0 >>> 5

/-- Macro `mode()` from caching.cpp: bits 4..2 of `IR[0]`. -/
def mode (IR0 : ℕ) : ℕ := (IR0 >>> 2) &&& 0x07

/-- Function `extract_literal` of caching.cpp: the low 6 bits of `IR[1]`
sign-extended from bit 5, i.e. the value of the returned signed `char`. -/
def extract_literal (IR1 : ℕ) : ℤ :=
  let value := IR1 &&& 0x3F
  if value &&& 0x20 ≠ 0 then (value : ℤ) - 64 else (value : ℤ)

/-- Function `get_reg1` of caching.cpp: the 4-bit register index spread
over the two instruction bytes. -/
def get_reg1 (IR0 IR1 : ℕ) : ℕ := (((IR0 &&& 0x03) <<< 2) ||| (IR1 >>> 6)) &&& 0x0F

/-- The second register index, computed as `(IR[1] >> 2) & 0x0F` in both
`calculate_ea` and `fetch_operands`. -/
def get_reg2 (IR1 : ℕ) : ℕ := (IR1 >>> 2) &&& 0x0F

/-- Value of an `unsigned short` read as C's signed `short` (the
`(short)` casts of caching.cpp), for `x < 2 ^ 16`. -/
def toShort (x : ℕ) : ℤ := if x < 32768 then (x : ℤ) else (x : ℤ) - 65536

/-- Truncation of a C `int` value to `unsigned short` on assignment. -/
def toUShort (i : ℤ) : ℕ := (i % 65536).toNat

/-- Struct STATE of caching.cpp together with the remaining mutable
globals: registers, code memory (a total function from word address to the
two instruction bytes, standing for `code[CODE_SIZE][2]`), the cache
globals, and `branch_count`. -/
structure Machine where
  PC : ℕ
  MDR : ℕ
  MAR : ℕ
  IR0 : ℕ
  IR1 : ℕ
  ALU_x : ℕ
  ALU_y : ℕ
  ALU_z : ℕ
  registers : List ℕ
  code : ℕ → ℕ × ℕ
  cache : CacheState
  branch_count : ℕ

/-- Function `fetch_instr` of caching.cpp: verify `PC < CODE_SIZE`, latch
`MAR`, load the big-endian word into `MDR` and split it into `IR`. -/
def fetch_instr (m : Machine) : Phase × Machine :=
  if m.PC < CODE_SIZE then
    let MAR := m.PC
    let MDR := (((m.code MAR).1 <<< 8) ||| (m.code MAR).2)
    let m1 := { m with MAR := MAR, MDR := MDR, IR0 := MDR >>> 8, IR1 := MDR &&& 0x00ff }
    (Phase.DECODE_INSTR, m1)
  else (Phase.ILLEGAL_ADDRESS, m)

/-- Function `decode_instr` of caching.cpp: validate the (opcode, mode)
pair; MOVE is redirected to CALCULATE_EA, every other valid instruction
goes straight to FETCH_OPERANDS.  The state is not modified. -/
def decode_instr (IR0 : ℕ) : Phase :=
  let op := opcode IR0
  if op = 0 ∨ op = 1 ∨ op = 2 ∨ op = 3 ∨ op = 4 ∨ op = 6 then
    if mode IR0 > 1 then Phase.ILLEGAL_OPCODE else Phase.FETCH_OPERANDS
  else if op = 5 then
    if mode IR0 &&& 0x02 ≠ 0 then Phase.ILLEGAL_OPCODE else Phase.CALCULATE_EA
  else if op = 7 then
    if mode IR0 = 0x07 then Phase.ILLEGAL_OPCODE else Phase.FETCH_OPERANDS
  else Phase.ILLEGAL_OPCODE

/-- Function `calculate_ea` of caching.cpp: pick the register holding the
memory address (`r1` when mode bit 2 is set, else `r2` when mode bit 0 is
set) and latch `MAR` from it; `0xFF` is the no-register sentinel. -/
def calculate_ea (m : Machine) : Phase × Machine :=
  let reg : ℕ :=
    if mode m.IR0 &&& 0x04 ≠ 0 then get_reg1 m.IR0 m.IR1
    else if mode m.IR0 &&& 0x01 ≠ 0 then get_reg2 m.IR1
    else 0xFF
  (Phase.FETCH_OPERANDS,
   if reg ≠ 0xFF then { m with MAR := m.registers.getD reg 0 } else m)

/-- Function `fetch_operands` of caching.cpp. -/
def fetch_operands (m : Machine) : Phase × Machine :=
  let op := opcode m.IR0
  let md := mode m.IR0
  let m1 :=
    if op ≠ 5 then { m with ALU_x := m.registers.getD (get_reg1 m.IR0 m.IR1) 0 } else m
  let reg := get_reg2 m.IR1
  if op = 0 ∨ op = 1 ∨ op = 2 ∨ op = 3 ∨ op = 4 then
    let y := if md = 0 then toUShort (extract_literal m.IR1) else m1.registers.getD reg 0
    (Phase.EXECUTE_INSTR, { m1 with ALU_y := y })
  else if op = 5 then
    if md &&& 0x01 = 0 then
      (Phase.WRITE_BACK, { m1 with MDR := toUShort (extract_literal m.IR1) })
    else if md &&& 0x04 ≠ 0 then
      (Phase.WRITE_BACK, { m1 with MDR := m1.registers.getD reg 0 })
    else
      let r := cache_read m1.cache m1.MAR m1.MDR
      (r.1, { m1 with cache := r.2.1, MDR := r.2.2 })
  else if op = 7 then
    (Phase.EXECUTE_INSTR, { m1 with ALU_y := toUShort (extract_literal m.IR1) })
  else (Phase.EXECUTE_INSTR, m1)

/-- The conditional-branch decision of `execute_instr` in caching.cpp:
signed comparison of `ALU_x` against register 0 selected by the mode. -/
def branch_taken (md : ℕ) (x r0 : ℕ) : Bool :=
  if md = 1 then toShort x = toShort r0
  else if md = 2 then toShort x ≠ toShort r0
  else if md = 3 then toShort x < toShort r0
  else if md = 4 then toShort x > toShort r0
  else if md = 5 then toShort x ≤ toShort r0
  else if md = 6 then toShort x ≥ toShort r0
  else false

/-- Function `execute_instr` of caching.cpp. -/
def execute_instr (m : Machine) : Phase × Machine :=
  let op := opcode m.IR0
  if op = 0 then
    (Phase.WRITE_BACK, { m with ALU_z := toUShort (toShort m.ALU_x + toShort m.ALU_y) })
  else if op = 1 then
    (Phase.WRITE_BACK, { m with ALU_z := toUShort (toShort m.ALU_x - toShort m.ALU_y) })
  else if op = 2 then
    (Phase.WRITE_BACK, { m with ALU_z := m.ALU_x &&& m.ALU_y })
  else if op = 3 then
    (Phase.WRITE_BACK, { m with ALU_z := m.ALU_x ||| m.ALU_y })
  else if op = 4 then
    (Phase.WRITE_BACK, { m with ALU_z := m.ALU_x ^^^ m.ALU_y })
  else if op = 6 then
    (Phase.WRITE_BACK,
     { m with ALU_z := if mode m.IR0 = 0 then m.ALU_x >>> 1 else (m.ALU_x <<< 1) % 65536 })
  else if op = 7 then
    if mode m.IR0 = 0 then
      let m1 := { m with ALU_z := m.ALU_x, branch_count := m.branch_count + 1 }
      if m1.branch_count > BRANCH_LIMIT then (Phase.INFINITE_LOOP, m1)
      else (Phase.WRITE_BACK, m1)
    else
      if branch_taken (mode m.IR0) m.ALU_x (m.registers.getD 0 0) then
        let z := toUShort ((m.PC : ℤ) + (m.ALU_y : ℤ) - 1)
        let m1 := { m with ALU_z := z, branch_count := m.branch_count + 1 }
        if m1.branch_count > BRANCH_LIMIT then (Phase.INFINITE_LOOP, m1)
        else (Phase.WRITE_BACK, m1)
      else (Phase.WRITE_BACK, { m with ALU_z := m.PC })
  else (Phase.WRITE_BACK, m)

/-- Function `write_back` of caching.cpp: commit `ALU_z` (or `MDR`) and
increment the program counter. -/
def write_back (m : Machine) : Phase × Machine :=
  let op := opcode m.IR0
  let reg := get_reg1 m.IR0 m.IR1
  let r : Phase × Machine :=
    if op = 0 ∨ op = 1 ∨ op = 2 ∨ op = 3 ∨ op = 4 ∨ op = 6 then
      (Phase.FETCH_INSTR, { m with registers := m.registers.set reg m.ALU_z })
    else if op = 7 then
      (Phase.FETCH_INSTR, { m with PC := m.ALU_z })
    else if op = 5 then
      if mode m.IR0 &&& 0x04 ≠ 0 then
        let w := cache_write m.cache m.MAR m.MDR
        (w.1, { m with cache := w.2 })
      else (Phase.FETCH_INSTR, { m with registers := m.registers.set reg m.MDR })
    else (Phase.FETCH_INSTR, m)
  (r.1, { r.2 with PC := (r.2.PC + 1) % 65536 })

/-- One transition of the control-unit loop of `main`: dispatch on the
current phase through the `control_unit` handler table; terminal phases
(the loop has exited) are left unchanged. -/
def step : Phase × Machine → Phase × Machine
  | (Phase.FETCH_INSTR, m) => fetch_instr m
  | (Phase.DECODE_INSTR, m) => (decode_instr m.IR0, m)
  | (Phase.CALCULATE_EA, m) => calculate_ea m
  | (Phase.FETCH_OPERANDS, m) => fetch_operands m
  | (Phase.EXECUTE_INSTR, m) => execute_instr m
  | (Phase.WRITE_BACK, m) => write_back m
  | pm => pm

/-- One full pass of the state machine starting at FETCH_INSTR.  Every
instruction takes exactly five transitions to retire (reaching FETCH_INSTR
again); a terminal phase reached earlier is preserved by `step`. -/
def run_pass (m : Machine) : Phase × Machine :=
  step (step (step (step (step (Phase.FETCH_INSTR, m)))))

/-- The empty cache dictionary and payload area built by
`initialize_system`, for a build with `n` cache blocks. -/
def init_cache (n : ℕ) : CacheState where
  dict := List.replicate n ⟨false, false, 0, 0⟩
  data_cache := List.replicate n (List.replicate BLOCK_SIZE (MEM_FILLER, MEM_FILLER))
  data := fun _ => List.replicate BLOCK_SIZE (MEM_FILLER, MEM_FILLER)
  cache_hits := 0
  current_ref_count := 1

/-- Function `initialize_system` of caching.cpp (with the default build
parameter `CACHE_BLOCKS = 1`): zeroed latches and registers, code and data
memory filled with `MEM_FILLER` bytes, an empty cache. -/
def init_system : Machine where
  PC := 0
  MDR := 0
  MAR := 0
  IR0 := 0
  IR1 := 0
  ALU_x := 0
  ALU_y := 0
  ALU_z := 0
  registers := List.replicate REGISTERS 0
  code := fun _ => (MEM_FILLER, MEM_FILLER)
  cache := init_cache CACHE_BLOCKS
  branch_count := 0

/-- A client-level cache operation, as issued by the simulator: a data
read (`cache_read`), a data write (`cache_write`), or a write-back flush
(`write_block`, which is also the eviction primitive). -/
inductive CacheOp where
  | read (MAR : ℕ)
  | write (MAR MDR : ℕ)
  | flush (block_id : ℕ)

/-- Apply one cache operation to the cache state. -/
def apply_op (s : CacheState) : CacheOp → CacheState
  | CacheOp.read MAR => (cache_read s MAR 0).2.1
  | CacheOp.write MAR MDR => (cache_write s MAR MDR).2
  | CacheOp.flush i => write_block s i

/-- Apply a sequence of cache operations from left to right. -/
def apply_ops (s : CacheState) (ops : List CacheOp) : CacheState :=
  ops.foldl apply_op s

/-- Method `Instruction::encode` of assembler.cpp: pack opcode, type
(mode), the two register indices and the immediate into two bytes.  The
immediate is masked with `0x03`, exactly as in the source. -/
def encode (op ty r1 r2 : ℕ) (imm : ℤ) : ℕ × ℕ :=
  ((op <<< 5) ||| (ty <<< 2) ||| (r1 >>> 2),
   ((r1 &&& 0x03) <<< 6) ||| (r2 <<< 2) ||| (imm % 4).toNat)

/-! Helper lemmas about bytes and list updates. -/

/-- High byte of a big-endian word assembled with shift and or. -/
theorem hi_byte (b0 b1 : ℕ) (h1 : b1 < 256) : ((b0 <<< 8) ||| b1) >>> 8 = b0 := by
  apply Nat.eq_of_testBit_eq
  intro j
  rw [Nat.testBit_shiftRight, Nat.testBit_lor, Nat.testBit_shiftLeft]
  have hb : b1.testBit (8 + j) = false := by
    apply Nat.testBit_lt_two_pow
    calc b1 < 256 := h1
    _ = 2 ^ 8 := by norm_num
    _ ≤ 2 ^ (8 + j) := Nat.pow_le_pow_right (by norm_num) (by omega)
  have h8 : 8 ≤ 8 + j := by omega
  simp [hb, h8, Nat.add_sub_cancel_left]

/-- Low byte of a big-endian word assembled with shift and or. -/
theorem lo_byte (b0 b1 : ℕ) (h1 : b1 < 256) : ((b0 <<< 8) ||| b1) &&& 0x00ff = b1 := by
  apply Nat.eq_of_testBit_eq
  intro j
  rw [Nat.testBit_land, Nat.testBit_lor, Nat.testBit_shiftLeft]
  have h255 : (0x00ff : ℕ) = 2 ^ 8 - 1 := by norm_num
  rw [h255, Nat.testBit_two_pow_sub_one]
  rcases Nat.lt_or_ge j 8 with hj | hj
  · have : ¬ 8 ≤ j := by omega
    simp [this, hj]
  · have hb : b1.testBit j = false := by
      apply Nat.testBit_lt_two_pow
      calc b1 < 256 := h1
      _ = 2 ^ 8 := by norm_num
      _ ≤ 2 ^ j := Nat.pow_le_pow_right (by norm_num) hj
    have : ¬ j < 8 := by omega
    simp [this, hb]

/-- Reading a just-written list position. -/
theorem getD_set_self {α : Type} (l : List α) (i : ℕ) (a d : α) (h : i < l.length) :
    (l.set i a).getD i d = a := by
  induction l generalizing i with
  | nil => simp at h
  | cons x xs ih =>
      cases i with
      | zero => simp [List.set, List.getD]
      | succ n =>
          simp only [List.set, List.length_cons] at h ⊢
          simpa [List.getD] using ih n (by omega)

/-- Reading any other list position after a write. -/
theorem getD_set_ne {α : Type} (l : List α) (i j : ℕ) (a d : α) (h : i ≠ j) :
    (l.set i a).getD j d = l.getD j d := by
  induction l generalizing i j with
  | nil => simp [List.set]
  | cons x xs ih =>
      cases i with
      | zero =>
          cases j with
          | zero => exact absurd rfl h
          | succ n => simp [List.set, List.getD]
      | succ n =>
          cases j with
          | zero => simp [List.set, List.getD]
          | succ k => simpa [List.set, List.getD] using ih n k (by omega)

/-! Lemmas about the dictionary scans of caching.cpp. -/

/-- A successful `scan_invalid` returns the first invalid index. -/
theorem scan_invalid_some (l : List CacheEntry) (i : ℕ) (h : scan_invalid l = some i) :
    i < l.length ∧ (l.getD i default).valid = false
    ∧ ∀ j, j < i → (l.getD j default).valid = true := by
  induction l generalizing i with
  | nil => simp [scan_invalid] at h
  | cons e rest ih =>
      by_cases hv : e.valid = false
      · simp only [scan_invalid, if_pos hv, Option.some.injEq] at h
        subst h
        exact ⟨by simp, by simpa using hv, fun j hj => absurd hj (by omega)⟩
      · simp only [scan_invalid, if_neg hv, Option.map_eq_some'] at h
        obtain ⟨i', hi', rfl⟩ := h
        obtain ⟨h1, h2, h3⟩ := ih i' hi'
        refine ⟨by simpa using h1, by simpa using h2, ?_⟩
        intro j hj
        cases j with
        | zero => simpa using (by simpa using hv : e.valid = true)
        | succ n => simpa using h3 n (by omega)

/-- A failed `scan_invalid` means every entry is valid. -/
theorem scan_invalid_none (l : List CacheEntry) (h : scan_invalid l = none) :
    ∀ k, k < l.length → (l.getD k default).valid = true := by
  induction l with
  | nil => intro k hk; simp at hk
  | cons e rest ih =>
      by_cases hv : e.valid = false
      · simp [scan_invalid, hv] at h
      · simp only [scan_invalid, if_neg hv, Option.map_eq_none'] at h
        intro k hk
        cases k with
        | zero => simpa using (by simpa using hv : e.valid = true)
        | succ n => simpa using ih h n (by simpa using hk)

/-- A successful `find_block` returns a valid index holding the tag. -/
theorem find_block_some (l : List CacheEntry) (tag i : ℕ) (h : find_block l tag = some i) :
    i < l.length ∧ (l.getD i default).valid = true ∧ (l.getD i default).tag = tag := by
  induction l generalizing i with
  | nil => simp [find_block] at h
  | cons e rest ih =>
      by_cases hc : e.valid = true ∧ e.tag = tag
      · simp only [find_block, if_pos hc, Option.some.injEq] at h
        subst h
        exact ⟨by simp, by simpa using hc.1, by simpa using hc.2⟩
      · simp only [find_block, if_neg hc, Option.map_eq_some'] at h
        obtain ⟨i', hi', rfl⟩ := h
        obtain ⟨h1, h2, h3⟩ := ih i' hi'
        exact ⟨by simpa using h1, by simpa using h2, by simpa using h3⟩

/-- A failed `find_block` means no valid entry holds the tag. -/
theorem find_block_none (l : List CacheEntry) (tag : ℕ) (h : find_block l tag = none) :
    ∀ k, k < l.length → (l.getD k default).valid = true → (l.getD k default).tag ≠ tag := by
  induction l with
  | nil => intro k hk; simp at hk
  | cons e rest ih =>
      by_cases hc : e.valid = true ∧ e.tag = tag
      · simp [find_block, hc] at h
      · simp only [find_block, if_neg hc, Option.map_eq_none'] at h
        intro k hk hv
        cases k with
        | zero =>
            intro htag
            exact hc ⟨by simpa using hv, by simpa using htag⟩
        | succ n => simpa using ih h n (by simpa using hk) (by simpa using hv)

/-- The fold inside `removeLRU`: its result never exceeds the incoming
minimum, bounds every valid entry's `ref_count` from below, and is either
the untouched accumulator or the value and absolute index of some valid
entry of the scanned list. -/
theorem lru_fold_spec (l : List CacheEntry) (i0 : ℕ) (acc : ℕ × ℕ) :
    (lru_fold l i0 acc).1 ≤ acc.1
    ∧ (∀ k, k < l.length → (l.getD k default).valid = true →
        (lru_fold l i0 acc).1 ≤ (l.getD k default).ref_count)
    ∧ (lru_fold l i0 acc = acc
        ∨ ∃ k, k < l.length ∧ (lru_fold l i0 acc).2 = i0 + k
            ∧ (l.getD k default).valid = true
            ∧ (l.getD k default).ref_count = (lru_fold l i0 acc).1) := by
  induction l generalizing i0 acc with
  | nil => simp [lru_fold]
  | cons e rest ih =>
      by_cases hcond : e.valid = true ∧ e.ref_count < acc.1
      · have hrw : lru_fold (e :: rest) i0 acc = lru_fold rest (i0 + 1) (e.ref_count, i0) := by
          simp [lru_fold, if_pos hcond]
        obtain ⟨h1, h2, h3⟩ := ih (i0 + 1) (e.ref_count, i0)
        rw [hrw]
        refine ⟨le_trans h1 (le_of_lt hcond.2), ?_, ?_⟩
        · intro k hk hv
          cases k with
          | zero => simpa using h1
          | succ n => simpa using h2 n (by simpa using hk) (by simpa using hv)
        · rcases h3 with heq | ⟨k, hk, hidx, hv, href⟩
          · right
            refine ⟨0, by simp, ?_, by simpa using hcond.1, ?_⟩
            · rw [heq]; simp
            · rw [heq]; simp
          · right
            refine ⟨k + 1, by simpa using hk, ?_, by simpa using hv, by simpa using href⟩
            rw [hidx]; omega
      · have hrw : lru_fold (e :: rest) i0 acc = lru_fold rest (i0 + 1) acc := by
          simp [lru_fold, if_neg hcond]
        obtain ⟨h1, h2, h3⟩ := ih (i0 + 1) acc
        rw [hrw]
        refine ⟨h1, ?_, ?_⟩
        · intro k hk hv
          cases k with
          | zero =>
              have hv' : e.valid = true := by simpa using hv
              have hge : acc.1 ≤ e.ref_count := by
                by_contra hlt
                exact hcond ⟨hv', by omega⟩
              simpa using le_trans h1 hge
          | succ n => simpa using h2 n (by simpa using hk) (by simpa using hv)
        · rcases h3 with heq | ⟨k, hk, hidx, hv, href⟩
          · left; exact heq
          · right
            refine ⟨k + 1, by simpa using hk, ?_, by simpa using hv, by simpa using href⟩
            rw [hidx]; omega

/-- The block chosen by `removeLRU` on a fully valid dictionary whose
reference counts stay below the scan's `0xFFFFFFFF` sentinel: it is in
range and minimizes `ref_count` over all entries. -/
theorem removeLRU_id_spec (l : List CacheEntry) (hpos : 0 < l.length)
    (hall : ∀ i, i < l.length → (l.getD i default).valid = true)
    (hrc : ∀ i, i < l.length → (l.getD i default).ref_count < 0xFFFFFFFF) :
    removeLRU_id l < l.length
    ∧ ∀ j, j < l.length →
        (l.getD (removeLRU_id l) default).ref_count ≤ (l.getD j default).ref_count := by
  obtain ⟨h1, h2, h3⟩ := lru_fold_spec l 0 (0xFFFFFFFF, 0)
  rcases h3 with heq | ⟨k, hk, hidx, hv, href⟩
  · exfalso
    have hb := h2 0 hpos (hall 0 hpos)
    rw [heq] at hb
    have := hrc 0 hpos
    omega
  · have hkid : removeLRU_id l = k := by
      rw [removeLRU_id, hidx]; omega
    constructor
    · rw [hkid]; exact hk
    · intro j hj
      rw [hkid, href]
      exact h2 j hj (hall j hj)

/-- Characterization of the fill step: the chosen entry becomes valid,
clean and tagged with its `ref_count` untouched, its payload becomes the
memory block, and nothing else changes. -/
theorem fill_at_spec (s : CacheState) (bid tag : ℕ)
    (hbid : bid < s.dict.length) (hlen : s.data_cache.length = s.dict.length) :
    (fill_at s bid tag).dict.length = s.dict.length
    ∧ (fill_at s bid tag).data_cache.length = s.data_cache.length
    ∧ entryAt (fill_at s bid tag) bid =
        { entryAt s bid with valid := true, dirty := false, tag := tag }
    ∧ (∀ k, k ≠ bid → entryAt (fill_at s bid tag) k = entryAt s k)
    ∧ (fill_at s bid tag).data_cache.getD bid [] = s.data tag
    ∧ (∀ k, k ≠ bid → (fill_at s bid tag).data_cache.getD k [] = s.data_cache.getD k [])
    ∧ (fill_at s bid tag).data = s.data
    ∧ (fill_at s bid tag).cache_hits = s.cache_hits
    ∧ (fill_at s bid tag).current_ref_count = s.current_ref_count := by
  refine ⟨by simp [fill_at], by simp [fill_at], ?_, ?_, ?_, ?_, rfl, rfl, rfl⟩
  · show ((s.dict.set bid _).getD bid default) = _
    rw [getD_set_self _ _ _ _ hbid]
    rfl
  · intro k hk
    show ((s.dict.set bid _).getD k default) = _
    rw [getD_set_ne _ _ _ _ _ (fun h => hk h.symm)]
    rfl
  · show ((s.data_cache.set bid (s.data tag)).getD bid []) = s.data tag
    rw [getD_set_self _ _ _ _ (hlen ▸ hbid)]
  · intro k hk
    show ((s.data_cache.set bid (s.data tag)).getD k []) = _
    rw [getD_set_ne _ _ _ _ _ (fun h => hk h.symm)]

/-- A `write_block` on an invalid entry (including any out-of-range id)
is a no-op. -/
theorem write_block_invalid (s : CacheState) (bid : ℕ)
    (hv : (entryAt s bid).valid = false) : write_block s bid = s := by
  rw [entryAt] at hv
  simp only [write_block]
  rw [if_neg]
  rw [hv]
  simp

/-- Characterization of `write_block` on a valid entry: the payload is
copied to memory exactly when the entry is dirty, the entry is cleared
(keeping its tag), and nothing else changes. -/
theorem write_block_spec (s : CacheState) (bid : ℕ)
    (hbid : bid < s.dict.length) (hv : (entryAt s bid).valid = true) :
    (write_block s bid).dict.length = s.dict.length
    ∧ (write_block s bid).data_cache = s.data_cache
    ∧ entryAt (write_block s bid) bid =
        { entryAt s bid with valid := false, dirty := false, ref_count := 0 }
    ∧ (∀ k, k ≠ bid → entryAt (write_block s bid) k = entryAt s k)
    ∧ (write_block s bid).data =
        (if (entryAt s bid).dirty = true
         then Function.update s.data (entryAt s bid).tag (s.data_cache.getD bid [])
         else s.data)
    ∧ (write_block s bid).cache_hits = s.cache_hits
    ∧ (write_block s bid).current_ref_count = s.current_ref_count := by
  rw [entryAt] at hv
  by_cases hd : (s.dict.getD bid default).dirty = true
  · have hrw : write_block s bid =
        { s with
          data := Function.update s.data (s.dict.getD bid default).tag (s.data_cache.getD bid []),
          dict := s.dict.set bid
            { s.dict.getD bid default with valid := false, dirty := false, ref_count := 0 } } := by
      simp only [write_block]
      rw [if_pos hv, if_pos hd]
    rw [hrw]
    refine ⟨by simp, rfl, ?_, ?_, ?_, rfl, rfl⟩
    · show ((s.dict.set bid _).getD bid default) = _
      rw [getD_set_self _ _ _ _ hbid]
      rfl
    · intro k hk
      show ((s.dict.set bid _).getD k default) = _
      rw [getD_set_ne _ _ _ _ _ (fun h => hk h.symm)]
      rfl
    · rw [entryAt, if_pos hd]
  · have hrw : write_block s bid =
        { s with
          dict := s.dict.set bid
            { s.dict.getD bid default with valid := false, dirty := false, ref_count := 0 } } := by
      simp only [write_block]
      rw [if_pos hv, if_neg hd]
    rw [hrw]
    refine ⟨by simp, rfl, ?_, ?_, ?_, rfl, rfl⟩
    · show ((s.dict.set bid _).getD bid default) = _
      rw [getD_set_self _ _ _ _ hbid]
      rfl
    · intro k hk
      show ((s.dict.set bid _).getD k default) = _
      rw [getD_set_ne _ _ _ _ _ (fun h => hk h.symm)]
      rfl
    · rw [entryAt, if_neg hd]

/-- Claim C4.  `fetch_block` selects the first invalid entry when one
exists (no write-back happens then); otherwise it evicts the valid entry
minimizing `ref_count`, writing its payload back to `data[tag]` exactly
when dirty and clearing it.  Afterwards the chosen entry is valid, clean,
tagged with the requested block, its payload is the memory block, and the
fill itself stamps no reference count: `current_ref_count` is unchanged
and the entry keeps its prior (post-clear) `ref_count`. -/
theorem fetch_block_first_invalid_or_lru (s : CacheState) (tag : ℕ)
    (hlen : s.data_cache.length = s.dict.length)
    (hpos : 0 < s.dict.length)
    (hrc : ∀ i, i < s.dict.length → (entryAt s i).ref_count < 0xFFFFFFFF) :
    (fetch_block s tag).2 < s.dict.length
    ∧ (entryAt (fetch_block s tag).1 (fetch_block s tag).2).valid = true
    ∧ (entryAt (fetch_block s tag).1 (fetch_block s tag).2).dirty = false
    ∧ (entryAt (fetch_block s tag).1 (fetch_block s tag).2).tag = tag
    ∧ (fetch_block s tag).1.data_cache.getD (fetch_block s tag).2 []
        = (fetch_block s tag).1.data tag
    ∧ (fetch_block s tag).1.current_ref_count = s.current_ref_count
    ∧ (∀ k, k < s.dict.length → k ≠ (fetch_block s tag).2 →
        entryAt (fetch_block s tag).1 k = entryAt s k)
    ∧ ((∃ i, i < s.dict.length ∧ (entryAt s i).valid = false) →
        (entryAt s (fetch_block s tag).2).valid = false
        ∧ (∀ j, j < (fetch_block s tag).2 → (entryAt s j).valid = true)
        ∧ (fetch_block s tag).1.data = s.data
        ∧ (entryAt (fetch_block s tag).1 (fetch_block s tag).2).ref_count
            = (entryAt s (fetch_block s tag).2).ref_count)
    ∧ ((∀ i, i < s.dict.length → (entryAt s i).valid = true) →
        (∀ j, j < s.dict.length →
          (entryAt s (fetch_block s tag).2).ref_count ≤ (entryAt s j).ref_count)
        ∧ (fetch_block s tag).1.data =
            (if (entryAt s (fetch_block s tag).2).dirty = true
             then Function.update s.data (entryAt s (fetch_block s tag).2).tag
                    (s.data_cache.getD (fetch_block s tag).2 [])
             else s.data)
        ∧ (entryAt (fetch_block s tag).1 (fetch_block s tag).2).ref_count = 0) := by
  cases hscan : scan_invalid s.dict with
  | some i =>
      obtain ⟨hi, hinv, hbefore⟩ := scan_invalid_some _ _ hscan
      have h1 : (fetch_block s tag).1 = fill_at s i tag := by
        simp [fetch_block, hscan]
      have h2 : (fetch_block s tag).2 = i := by
        simp [fetch_block, hscan]
      rw [h1, h2]
      obtain ⟨fl1, fl2, fl3, fl4, fl5, fl6, fl7, fl8, fl9⟩ := fill_at_spec s i tag hi hlen
      refine ⟨hi, ?_, ?_, ?_, ?_, fl9, ?_, ?_, ?_⟩
      · rw [fl3]
      · rw [fl3]
      · rw [fl3]
      · rw [fl5, fl7]
      · intro k hk hki
        exact fl4 k hki
      · intro _
        exact ⟨hinv, hbefore, fl7, by rw [fl3]⟩
      · intro hall
        exact absurd (hall i hi) (by simp only [entryAt]; rw [hinv]; simp)
  | none =>
      have hall := scan_invalid_none _ hscan
      obtain ⟨hbl, hmin⟩ := removeLRU_id_spec s.dict hpos hall hrc
      have h1 : (fetch_block s tag).1 = fill_at (write_block s (removeLRU_id s.dict)) (removeLRU_id s.dict) tag := by
        simp [fetch_block, hscan, removeLRU]
      have h2 : (fetch_block s tag).2 = removeLRU_id s.dict := by
        simp [fetch_block, hscan, removeLRU]
      rw [h1, h2]
      obtain ⟨wb1, wb2, wb3, wb4, wb5, wb6, wb7⟩ :=
        write_block_spec s (removeLRU_id s.dict) hbl (hall _ hbl)
      obtain ⟨fl1, fl2, fl3, fl4, fl5, fl6, fl7, fl8, fl9⟩ :=
        fill_at_spec (write_block s (removeLRU_id s.dict)) (removeLRU_id s.dict) tag
          (by rw [wb1]; exact hbl) (by rw [wb2, wb1]; exact hlen)
      refine ⟨hbl, ?_, ?_, ?_, ?_, fl9.trans wb7, ?_, ?_, ?_⟩
      · rw [fl3]
      · rw [fl3]
      · rw [fl3]
      · rw [fl5, fl7]
      · intro k hk hki
        rw [fl4 k hki, wb4 k hki]
      · intro hex
        obtain ⟨j, hj, hjv⟩ := hex
        exact absurd (hall j hj) (by simp [entryAt] at hjv; simp [hjv])
      · intro _
        refine ⟨hmin, ?_, ?_⟩
        · rw [fl7, wb5]
        · rw [fl3, wb3]

/-- The chosen block index of `removeLRU` is always in range on a
nonempty dictionary. -/
theorem removeLRU_id_lt (l : List CacheEntry) (hpos : 0 < l.length) :
    removeLRU_id l < l.length := by
  obtain ⟨h1, h2, h3⟩ := lru_fold_spec l 0 (0xFFFFFFFF, 0)
  rcases h3 with heq | ⟨k, hk, hidx, hv, href⟩
  · rw [removeLRU_id, heq]
    exact hpos
  · rw [removeLRU_id, hidx]
    omega

/-- Characterization of `fetch_block` needed for the cache invariants:
the chosen block is in range, becomes valid, clean and tagged, everything
else in the dictionary and payload area is untouched, no reference count
is stamped, and data memory either stays intact or receives the payload
of the (previously valid) evicted entry at that entry's tag. -/
theorem fetch_block_chars (s : CacheState) (tag : ℕ)
    (hlen : s.data_cache.length = s.dict.length) (hpos : 0 < s.dict.length) :
    (fetch_block s tag).2 < s.dict.length
    ∧ (fetch_block s tag).1.dict.length = s.dict.length
    ∧ (fetch_block s tag).1.data_cache.length = s.data_cache.length
    ∧ (entryAt (fetch_block s tag).1 (fetch_block s tag).2).valid = true
    ∧ (entryAt (fetch_block s tag).1 (fetch_block s tag).2).dirty = false
    ∧ (entryAt (fetch_block s tag).1 (fetch_block s tag).2).tag = tag
    ∧ (∀ k, k < s.dict.length → k ≠ (fetch_block s tag).2 →
        entryAt (fetch_block s tag).1 k = entryAt s k)
    ∧ (∀ k, k ≠ (fetch_block s tag).2 →
        (fetch_block s tag).1.data_cache.getD k [] = s.data_cache.getD k [])
    ∧ (fetch_block s tag).1.data_cache.getD (fetch_block s tag).2 []
        = (fetch_block s tag).1.data tag
    ∧ (fetch_block s tag).1.current_ref_count = s.current_ref_count
    ∧ (fetch_block s tag).1.cache_hits = s.cache_hits
    ∧ ((fetch_block s tag).1.data = s.data
        ∨ ((entryAt s (fetch_block s tag).2).valid = true
            ∧ (fetch_block s tag).1.data =
                Function.update s.data (entryAt s (fetch_block s tag).2).tag
                  (s.data_cache.getD (fetch_block s tag).2 []))) := by
  cases hscan : scan_invalid s.dict with
  | some i =>
      obtain ⟨hi, hinv, hbefore⟩ := scan_invalid_some _ _ hscan
      have h1 : (fetch_block s tag).1 = fill_at s i tag := by
        simp [fetch_block, hscan]
      have h2 : (fetch_block s tag).2 = i := by
        simp [fetch_block, hscan]
      rw [h1, h2]
      obtain ⟨fl1, fl2, fl3, fl4, fl5, fl6, fl7, fl8, fl9⟩ := fill_at_spec s i tag hi hlen
      refine ⟨hi, fl1, fl2, ?_, ?_, ?_, ?_, fl6, ?_, fl9, fl8, Or.inl fl7⟩
      · rw [fl3]
      · rw [fl3]
      · rw [fl3]
      · intro k hk hki
        exact fl4 k hki
      · rw [fl5, fl7]
  | none =>
      have hall := scan_invalid_none _ hscan
      have hbl : removeLRU_id s.dict < s.dict.length := removeLRU_id_lt s.dict hpos
      have h1 : (fetch_block s tag).1
          = fill_at (write_block s (removeLRU_id s.dict)) (removeLRU_id s.dict) tag := by
        simp [fetch_block, hscan, removeLRU]
      have h2 : (fetch_block s tag).2 = removeLRU_id s.dict := by
        simp [fetch_block, hscan, removeLRU]
      rw [h1, h2]
      obtain ⟨wb1, wb2, wb3, wb4, wb5, wb6, wb7⟩ :=
        write_block_spec s (removeLRU_id s.dict) hbl (hall _ hbl)
      obtain ⟨fl1, fl2, fl3, fl4, fl5, fl6, fl7, fl8, fl9⟩ :=
        fill_at_spec (write_block s (removeLRU_id s.dict)) (removeLRU_id s.dict) tag
          (by rw [wb1]; exact hbl) (by rw [wb2, wb1]; exact hlen)
      refine ⟨hbl, fl1.trans wb1, ?_, ?_, ?_, ?_, ?_, ?_, ?_, fl9.trans wb7, fl8.trans wb6, ?_⟩
      · rw [fl2, wb2]
      · rw [fl3]
      · rw [fl3]
      · rw [fl3]
      · intro k hk hki
        rw [fl4 k hki, wb4 k hki]
      · intro k hki
        rw [fl6 k hki, wb2]
      · rw [fl5, fl7]
      · rw [fl7, wb5]
        by_cases hd : (entryAt s (removeLRU_id s.dict)).dirty = true
        · right
          exact ⟨hall _ hbl, by rw [if_pos hd]⟩
        · left
          rw [if_neg hd]

/-- The cache invariant maintained by every client-level operation:
consistent lengths, at least one cache block (`CACHE_BLOCKS ≥ 1`), a
positive next serial, reference counts of valid entries below the serial
and pairwise distinct, pairwise distinct tags of valid entries, and every
valid clean payload equal to its memory block. -/
structure CacheInv (s : CacheState) : Prop where
  len_eq : s.data_cache.length = s.dict.length
  pos : 0 < s.dict.length
  crc_pos : 0 < s.current_ref_count
  ref_lt : ∀ i, i < s.dict.length → (entryAt s i).valid = true →
      (entryAt s i).ref_count < s.current_ref_count
  ref_ne : ∀ i j, i < s.dict.length → j < s.dict.length → i ≠ j →
      (entryAt s i).valid = true → (entryAt s j).valid = true →
      (entryAt s i).ref_count ≠ (entryAt s j).ref_count
  tag_ne : ∀ i j, i < s.dict.length → j < s.dict.length → i ≠ j →
      (entryAt s i).valid = true → (entryAt s j).valid = true →
      (entryAt s i).tag ≠ (entryAt s j).tag
  clean_eq : ∀ i, i < s.dict.length → (entryAt s i).valid = true →
      (entryAt s i).dirty = false →
      s.data_cache.getD i [] = s.data (entryAt s i).tag

/-- Flushing a block (`write_block`) preserves the cache invariant. -/
theorem inv_write_block (s : CacheState) (i : ℕ) (h : CacheInv s) :
    CacheInv (write_block s i) := by
  by_cases hv : (entryAt s i).valid = true
  · have hi : i < s.dict.length := by
      by_contra hge
      have hdef : entryAt s i = default := by
        rw [entryAt]
        exact List.getD_eq_default _ _ (by omega)
      rw [hdef] at hv
      exact absurd hv (by decide)
    obtain ⟨wb1, wb2, wb3, wb4, wb5, wb6, wb7⟩ := write_block_spec s i hi hv
    have hval : ∀ k, k < s.dict.length → (entryAt (write_block s i) k).valid = true →
        k ≠ i ∧ entryAt (write_block s i) k = entryAt s k := by
      intro k hk hkv
      by_cases hki : k = i
      · subst hki
        rw [wb3] at hkv
        exact absurd hkv (by simp)
      · exact ⟨hki, wb4 k hki⟩
    constructor
    · rw [wb2, wb1]; exact h.len_eq
    · rw [wb1]; exact h.pos
    · rw [wb7]; exact h.crc_pos
    · intro k hk hkv
      rw [wb1] at hk
      obtain ⟨hki, hkeq⟩ := hval k hk hkv
      rw [hkeq] at hkv ⊢
      rw [wb7]
      exact h.ref_lt k hk hkv
    · intro k l hk hl hkl hkv hlv
      rw [wb1] at hk hl
      obtain ⟨hki, hkeq⟩ := hval k hk hkv
      obtain ⟨hli, hleq⟩ := hval l hl hlv
      rw [hkeq] at hkv ⊢
      rw [hleq] at hlv ⊢
      exact h.ref_ne k l hk hl hkl hkv hlv
    · intro k l hk hl hkl hkv hlv
      rw [wb1] at hk hl
      obtain ⟨hki, hkeq⟩ := hval k hk hkv
      obtain ⟨hli, hleq⟩ := hval l hl hlv
      rw [hkeq] at hkv ⊢
      rw [hleq] at hlv ⊢
      exact h.tag_ne k l hk hl hkl hkv hlv
    · intro k hk hkv hkd
      rw [wb1] at hk
      obtain ⟨hki, hkeq⟩ := hval k hk hkv
      rw [hkeq] at hkv hkd ⊢
      rw [wb2, wb5]
      have hbase := h.clean_eq k hk hkv hkd
      by_cases hd : (entryAt s i).dirty = true
      · rw [if_pos hd]
        rw [Function.update_noteq (h.tag_ne k i hk hi hki hkv hv)]
        exact hbase
      · rw [if_neg hd]
        exact hbase
  · have hb : (entryAt s i).valid = false := by
      cases hvv : (entryAt s i).valid
      · rfl
      · exact absurd hvv hv
    rw [write_block_invalid s i hb]
    exact h

/-- Unfolding `entryAt` on an explicitly built cache state. -/
theorem entryAt_mk (d : List CacheEntry) (dc : List Block) (f : ℕ → Block)
    (ch crc k : ℕ) : entryAt ⟨d, dc, f, ch, crc⟩ k = d.getD k default := rfl

/-- A data read (`cache_read`) preserves the cache invariant. -/
theorem inv_cache_read (s : CacheState) (MAR MDR : ℕ) (h : CacheInv s) :
    CacheInv (cache_read s MAR MDR).2.1 := by
  by_cases hR : MAR < DATA_SIZE * BLOCK_SIZE * 2
  · cases hfind : find_block s.dict (addr2tag MAR) with
    | some i =>
        obtain ⟨hi, hiv, hitag⟩ := find_block_some _ _ _ hfind
        have heq : (cache_read s MAR MDR).2.1 =
            ⟨s.dict.set i { s.dict.getD i default with ref_count := s.current_ref_count },
             s.data_cache, s.data, s.cache_hits + 1, s.current_ref_count + 1⟩ := by
          simp [cache_read, hR, hfind]
        rw [heq]
        have hset_self : (s.dict.set i
            { s.dict.getD i default with ref_count := s.current_ref_count }).getD i default
            = { s.dict.getD i default with ref_count := s.current_ref_count } :=
          getD_set_self _ _ _ _ hi
        have hset_ne : ∀ k, k ≠ i → (s.dict.set i
            { s.dict.getD i default with ref_count := s.current_ref_count }).getD k default
            = entryAt s k := by
          intro k hk
          exact getD_set_ne _ _ _ _ _ (fun hh => hk hh.symm)
        constructor
        · simp [h.len_eq]
        · simpa using h.pos
        · exact Nat.succ_pos _
        · intro k hk hkv
          simp only [List.length_set] at hk
          simp only [entryAt_mk] at hkv ⊢
          by_cases hki : k = i
          · subst hki
            rw [hset_self]
            exact Nat.lt_succ_self _
          · rw [hset_ne k hki] at hkv ⊢
            exact Nat.lt_succ_of_lt (h.ref_lt k hk hkv)
        · intro k l hk hl hkl hkv hlv
          simp only [List.length_set] at hk hl
          simp only [entryAt_mk] at hkv hlv ⊢
          by_cases hki : k = i
          · subst hki
            rw [hset_self] at hkv ⊢
            rw [hset_ne l (fun hh => hkl hh.symm)] at hlv ⊢
            have := h.ref_lt l hl hlv
            show s.current_ref_count ≠ (entryAt s l).ref_count
            omega
          · rw [hset_ne k hki] at hkv ⊢
            by_cases hli : l = i
            · subst hli
              rw [hset_self] at hlv ⊢
              have := h.ref_lt k hk hkv
              show (entryAt s k).ref_count ≠ s.current_ref_count
              omega
            · rw [hset_ne l hli] at hlv ⊢
              exact h.ref_ne k l hk hl hkl hkv hlv
        · intro k l hk hl hkl hkv hlv
          simp only [List.length_set] at hk hl
          simp only [entryAt_mk] at hkv hlv ⊢
          by_cases hki : k = i
          · subst hki
            rw [hset_self] at hkv ⊢
            rw [hset_ne l (fun hh => hkl hh.symm)] at hlv ⊢
            show (entryAt s k).tag ≠ (entryAt s l).tag
            exact h.tag_ne k l hi hl hkl hkv hlv
          · rw [hset_ne k hki] at hkv ⊢
            by_cases hli : l = i
            · subst hli
              rw [hset_self] at hlv ⊢
              show (entryAt s k).tag ≠ (entryAt s l).tag
              exact h.tag_ne k l hk hi hkl hkv hiv
            · rw [hset_ne l hli] at hlv ⊢
              exact h.tag_ne k l hk hl hkl hkv hlv
        · intro k hk hkv hkd
          simp only [List.length_set] at hk
          simp only [entryAt_mk] at hkv hkd ⊢
          by_cases hki : k = i
          · subst hki
            rw [hset_self] at hkv hkd ⊢
            show s.data_cache.getD k [] = s.data (entryAt s k).tag
            exact h.clean_eq k hk hkv hkd
          · rw [hset_ne k hki] at hkv hkd ⊢
            exact h.clean_eq k hk hkv hkd
    | none =>
        have hnone := find_block_none _ _ hfind
        obtain ⟨c1, c2, c3, c4, c5, c6, c7, c8, c9, c10, c11, c12⟩ :=
          fetch_block_chars s (addr2tag MAR) h.len_eq h.pos
        have heq : (cache_read s MAR MDR).2.1 =
            ⟨(fetch_block s (addr2tag MAR)).1.dict.set (fetch_block s (addr2tag MAR)).2
               { (fetch_block s (addr2tag MAR)).1.dict.getD (fetch_block s (addr2tag MAR)).2 default
                 with ref_count := (fetch_block s (addr2tag MAR)).1.current_ref_count },
             (fetch_block s (addr2tag MAR)).1.data_cache,
             (fetch_block s (addr2tag MAR)).1.data,
             (fetch_block s (addr2tag MAR)).1.cache_hits,
             (fetch_block s (addr2tag MAR)).1.current_ref_count + 1⟩ := by
          simp [cache_read, hR, hfind]
        rw [heq]
        have hset_self : ((fetch_block s (addr2tag MAR)).1.dict.set (fetch_block s (addr2tag MAR)).2
            { (fetch_block s (addr2tag MAR)).1.dict.getD (fetch_block s (addr2tag MAR)).2 default
              with ref_count := (fetch_block s (addr2tag MAR)).1.current_ref_count }).getD
              (fetch_block s (addr2tag MAR)).2 default
            = { (fetch_block s (addr2tag MAR)).1.dict.getD (fetch_block s (addr2tag MAR)).2 default
                with ref_count := (fetch_block s (addr2tag MAR)).1.current_ref_count } :=
          getD_set_self _ _ _ _ (by rw [c2]; exact c1)
        have hset_ne : ∀ k, k ≠ (fetch_block s (addr2tag MAR)).2 →
            ((fetch_block s (addr2tag MAR)).1.dict.set (fetch_block s (addr2tag MAR)).2
              { (fetch_block s (addr2tag MAR)).1.dict.getD (fetch_block s (addr2tag MAR)).2 default
                with ref_count := (fetch_block s (addr2tag MAR)).1.current_ref_count }).getD k default
            = entryAt (fetch_block s (addr2tag MAR)).1 k := by
          intro k hk
          exact getD_set_ne _ _ _ _ _ (fun hh => hk hh.symm)
        have hky : ∀ k, k < s.dict.length → k ≠ (fetch_block s (addr2tag MAR)).2 →
            entryAt (fetch_block s (addr2tag MAR)).1 k = entryAt s k := c7
        constructor
        · simp [c3, c2, h.len_eq]
        · simp only [List.length_set]
          rw [c2]; exact h.pos
        · exact Nat.succ_pos _
        · intro k hk hkv
          simp only [List.length_set, c2] at hk
          simp only [entryAt_mk] at hkv ⊢
          by_cases hki : k = (fetch_block s (addr2tag MAR)).2
          · subst hki
            rw [hset_self]
            exact Nat.lt_succ_self _
          · rw [hset_ne k hki, hky k hk hki] at hkv ⊢
            rw [c10]
            exact Nat.lt_succ_of_lt (h.ref_lt k hk hkv)
        · intro k l hk hl hkl hkv hlv
          simp only [List.length_set, c2] at hk hl
          simp only [entryAt_mk] at hkv hlv ⊢
          by_cases hki : k = (fetch_block s (addr2tag MAR)).2
          · subst hki
            rw [hset_self] at hkv ⊢
            rw [hset_ne l (fun hh => hkl hh.symm), hky l hl (fun hh => hkl hh.symm)] at hlv ⊢
            have h1 := h.ref_lt l hl hlv
            have h2 := c10
            show (fetch_block s (addr2tag MAR)).1.current_ref_count ≠ (entryAt s l).ref_count
            omega
          · rw [hset_ne k hki, hky k hk hki] at hkv ⊢
            by_cases hli : l = (fetch_block s (addr2tag MAR)).2
            · subst hli
              rw [hset_self] at hlv ⊢
              have h1 := h.ref_lt k hk hkv
              have h2 := c10
              show (entryAt s k).ref_count ≠ (fetch_block s (addr2tag MAR)).1.current_ref_count
              omega
            · rw [hset_ne l hli, hky l hl hli] at hlv ⊢
              exact h.ref_ne k l hk hl hkl hkv hlv
        · intro k l hk hl hkl hkv hlv
          simp only [List.length_set, c2] at hk hl
          simp only [entryAt_mk] at hkv hlv ⊢
          by_cases hki : k = (fetch_block s (addr2tag MAR)).2
          · subst hki
            rw [hset_self] at hkv ⊢
            rw [hset_ne l (fun hh => hkl hh.symm), hky l hl (fun hh => hkl hh.symm)] at hlv ⊢
            show (entryAt (fetch_block s (addr2tag MAR)).1 (fetch_block s (addr2tag MAR)).2).tag
              ≠ (entryAt s l).tag
            rw [c6]
            exact fun hh => hnone l hl hlv hh.symm
          · rw [hset_ne k hki, hky k hk hki] at hkv ⊢
            by_cases hli : l = (fetch_block s (addr2tag MAR)).2
            · subst hli
              rw [hset_self] at hlv ⊢
              show (entryAt s k).tag
                ≠ (entryAt (fetch_block s (addr2tag MAR)).1 (fetch_block s (addr2tag MAR)).2).tag
              rw [c6]
              exact hnone k hk hkv
            · rw [hset_ne l hli, hky l hl hli] at hlv ⊢
              exact h.tag_ne k l hk hl hkl hkv hlv
        · intro k hk hkv hkd
          simp only [List.length_set, c2] at hk
          simp only [entryAt_mk] at hkv hkd ⊢
          by_cases hki : k = (fetch_block s (addr2tag MAR)).2
          · subst hki
            rw [hset_self] at hkv hkd ⊢
            show (fetch_block s (addr2tag MAR)).1.data_cache.getD
                (fetch_block s (addr2tag MAR)).2 []
              = (fetch_block s (addr2tag MAR)).1.data
                  (entryAt (fetch_block s (addr2tag MAR)).1 (fetch_block s (addr2tag MAR)).2).tag
            rw [c6]
            exact c9
          · rw [hset_ne k hki, hky k hk hki] at hkv hkd ⊢
            show (fetch_block s (addr2tag MAR)).1.data_cache.getD k []
              = (fetch_block s (addr2tag MAR)).1.data (entryAt s k).tag
            rw [c8 k hki]
            have hbase := h.clean_eq k hk hkv hkd
            rcases c12 with hsame | ⟨hbv, hupd⟩
            · rw [hsame]
              exact hbase
            · rw [hupd]
              rw [Function.update_noteq]
              · exact hbase
              · exact h.tag_ne k (fetch_block s (addr2tag MAR)).2 hk
                  (by exact c1) hki hkv hbv
  · have heq : (cache_read s MAR MDR).2.1 = s := by
      simp [cache_read, hR]
    rw [heq]
    exact h

/-- A data write (`cache_write`) preserves the cache invariant. -/
theorem inv_cache_write (s : CacheState) (MAR MDR : ℕ) (h : CacheInv s) :
    CacheInv (cache_write s MAR MDR).2 := by
  by_cases hR : MAR < DATA_SIZE * BLOCK_SIZE * 2
  · cases hfind : find_block s.dict (addr2tag MAR) with
    | some i =>
        obtain ⟨hi, hiv, hitag⟩ := find_block_some _ _ _ hfind
        have heq : (cache_write s MAR MDR).2 =
            ⟨s.dict.set i
               { s.dict.getD i default with ref_count := s.current_ref_count, dirty := true },
             s.data_cache.set i
               ((s.data_cache.getD i []).set (addr2offset MAR) (MDR >>> 8, MDR &&& 0x00ff)),
             s.data, s.cache_hits + 1, s.current_ref_count + 1⟩ := by
          simp [cache_write, hR, hfind]
        rw [heq]
        have hset_self : (s.dict.set i
            { s.dict.getD i default with ref_count := s.current_ref_count, dirty := true }).getD
              i default
            = { s.dict.getD i default with ref_count := s.current_ref_count, dirty := true } :=
          getD_set_self _ _ _ _ hi
        have hset_ne : ∀ k, k ≠ i → (s.dict.set i
            { s.dict.getD i default with ref_count := s.current_ref_count, dirty := true }).getD
              k default
            = entryAt s k := by
          intro k hk
          exact getD_set_ne _ _ _ _ _ (fun hh => hk hh.symm)
        constructor
        · simp [h.len_eq]
        · simpa using h.pos
        · exact Nat.succ_pos _
        · intro k hk hkv
          simp only [List.length_set] at hk
          simp only [entryAt_mk] at hkv ⊢
          by_cases hki : k = i
          · subst hki
            rw [hset_self]
            exact Nat.lt_succ_self _
          · rw [hset_ne k hki] at hkv ⊢
            exact Nat.lt_succ_of_lt (h.ref_lt k hk hkv)
        · intro k l hk hl hkl hkv hlv
          simp only [List.length_set] at hk hl
          simp only [entryAt_mk] at hkv hlv ⊢
          by_cases hki : k = i
          · subst hki
            rw [hset_self] at hkv ⊢
            rw [hset_ne l (fun hh => hkl hh.symm)] at hlv ⊢
            have := h.ref_lt l hl hlv
            show s.current_ref_count ≠ (entryAt s l).ref_count
            omega
          · rw [hset_ne k hki] at hkv ⊢
            by_cases hli : l = i
            · subst hli
              rw [hset_self] at hlv ⊢
              have := h.ref_lt k hk hkv
              show (entryAt s k).ref_count ≠ s.current_ref_count
              omega
            · rw [hset_ne l hli] at hlv ⊢
              exact h.ref_ne k l hk hl hkl hkv hlv
        · intro k l hk hl hkl hkv hlv
          simp only [List.length_set] at hk hl
          simp only [entryAt_mk] at hkv hlv ⊢
          by_cases hki : k = i
          · subst hki
            rw [hset_self] at hkv ⊢
            rw [hset_ne l (fun hh => hkl hh.symm)] at hlv ⊢
            show (entryAt s k).tag ≠ (entryAt s l).tag
            exact h.tag_ne k l hi hl hkl hkv hlv
          · rw [hset_ne k hki] at hkv ⊢
            by_cases hli : l = i
            · subst hli
              rw [hset_self] at hlv ⊢
              show (entryAt s k).tag ≠ (entryAt s l).tag
              exact h.tag_ne k l hk hi hkl hkv hiv
            · rw [hset_ne l hli] at hlv ⊢
              exact h.tag_ne k l hk hl hkl hkv hlv
        · intro k hk hkv hkd
          simp only [List.length_set] at hk
          simp only [entryAt_mk] at hkv hkd ⊢
          by_cases hki : k = i
          · subst hki
            rw [hset_self] at hkd
            exact absurd hkd (by simp)
          · rw [hset_ne k hki] at hkv hkd ⊢
            show (s.data_cache.set i _).getD k [] = s.data (entryAt s k).tag
            rw [getD_set_ne _ _ _ _ _ (fun hh => hki hh.symm)]
            exact h.clean_eq k hk hkv hkd
    | none =>
        have hnone := find_block_none _ _ hfind
        obtain ⟨c1, c2, c3, c4, c5, c6, c7, c8, c9, c10, c11, c12⟩ :=
          fetch_block_chars s (addr2tag MAR) h.len_eq h.pos
        have heq : (cache_write s MAR MDR).2 =
            ⟨(fetch_block s (addr2tag MAR)).1.dict.set (fetch_block s (addr2tag MAR)).2
               { (fetch_block s (addr2tag MAR)).1.dict.getD (fetch_block s (addr2tag MAR)).2 default
                 with ref_count := (fetch_block s (addr2tag MAR)).1.current_ref_count,
                      dirty := true },
             (fetch_block s (addr2tag MAR)).1.data_cache.set (fetch_block s (addr2tag MAR)).2
               (((fetch_block s (addr2tag MAR)).1.data_cache.getD
                   (fetch_block s (addr2tag MAR)).2 []).set
                 (addr2offset MAR) (MDR >>> 8, MDR &&& 0x00ff)),
             (fetch_block s (addr2tag MAR)).1.data,
             (fetch_block s (addr2tag MAR)).1.cache_hits,
             (fetch_block s (addr2tag MAR)).1.current_ref_count + 1⟩ := by
          simp [cache_write, hR, hfind]
        rw [heq]
        have hset_self : ((fetch_block s (addr2tag MAR)).1.dict.set (fetch_block s (addr2tag MAR)).2
            { (fetch_block s (addr2tag MAR)).1.dict.getD (fetch_block s (addr2tag MAR)).2 default
              with ref_count := (fetch_block s (addr2tag MAR)).1.current_ref_count,
                   dirty := true }).getD (fetch_block s (addr2tag MAR)).2 default
            = { (fetch_block s (addr2tag MAR)).1.dict.getD (fetch_block s (addr2tag MAR)).2 default
                with ref_count := (fetch_block s (addr2tag MAR)).1.current_ref_count,
                     dirty := true } :=
          getD_set_self _ _ _ _ (by rw [c2]; exact c1)
        have hset_ne : ∀ k, k ≠ (fetch_block s (addr2tag MAR)).2 →
            ((fetch_block s (addr2tag MAR)).1.dict.set (fetch_block s (addr2tag MAR)).2
              { (fetch_block s (addr2tag MAR)).1.dict.getD (fetch_block s (addr2tag MAR)).2 default
                with ref_count := (fetch_block s (addr2tag MAR)).1.current_ref_count,
                     dirty := true }).getD k default
            = entryAt (fetch_block s (addr2tag MAR)).1 k := by
          intro k hk
          exact getD_set_ne _ _ _ _ _ (fun hh => hk hh.symm)
        have hky : ∀ k, k < s.dict.length → k ≠ (fetch_block s (addr2tag MAR)).2 →
            entryAt (fetch_block s (addr2tag MAR)).1 k = entryAt s k := c7
        constructor
        · simp [c3, c2, h.len_eq]
        · simp only [List.length_set]
          rw [c2]; exact h.pos
        · exact Nat.succ_pos _
        · intro k hk hkv
          simp only [List.length_set, c2] at hk
          simp only [entryAt_mk] at hkv ⊢
          by_cases hki : k = (fetch_block s (addr2tag MAR)).2
          · subst hki
            rw [hset_self]
            exact Nat.lt_succ_self _
          · rw [hset_ne k hki, hky k hk hki] at hkv ⊢
            rw [c10]
            exact Nat.lt_succ_of_lt (h.ref_lt k hk hkv)
        · intro k l hk hl hkl hkv hlv
          simp only [List.length_set, c2] at hk hl
          simp only [entryAt_mk] at hkv hlv ⊢
          by_cases hki : k = (fetch_block s (addr2tag MAR)).2
          · subst hki
            rw [hset_self] at hkv ⊢
            rw [hset_ne l (fun hh => hkl hh.symm), hky l hl (fun hh => hkl hh.symm)] at hlv ⊢
            have h1 := h.ref_lt l hl hlv
            have h2 := c10
            show (fetch_block s (addr2tag MAR)).1.current_ref_count ≠ (entryAt s l).ref_count
            omega
          · rw [hset_ne k hki, hky k hk hki] at hkv ⊢
            by_cases hli : l = (fetch_block s (addr2tag MAR)).2
            · subst hli
              rw [hset_self] at hlv ⊢
              have h1 := h.ref_lt k hk hkv
              have h2 := c10
              show (entryAt s k).ref_count ≠ (fetch_block s (addr2tag MAR)).1.current_ref_count
              omega
            · rw [hset_ne l hli, hky l hl hli] at hlv ⊢
              exact h.ref_ne k l hk hl hkl hkv hlv
        · intro k l hk hl hkl hkv hlv
          simp only [List.length_set, c2] at hk hl
          simp only [entryAt_mk] at hkv hlv ⊢
          by_cases hki : k = (fetch_block s (addr2tag MAR)).2
          · subst hki
            rw [hset_self] at hkv ⊢
            rw [hset_ne l (fun hh => hkl hh.symm), hky l hl (fun hh => hkl hh.symm)] at hlv ⊢
            show (entryAt (fetch_block s (addr2tag MAR)).1 (fetch_block s (addr2tag MAR)).2).tag
              ≠ (entryAt s l).tag
            rw [c6]
            exact fun hh => hnone l hl hlv hh.symm
          · rw [hset_ne k hki, hky k hk hki] at hkv ⊢
            by_cases hli : l = (fetch_block s (addr2tag MAR)).2
            · subst hli
              rw [hset_self] at hlv ⊢
              show (entryAt s k).tag
                ≠ (entryAt (fetch_block s (addr2tag MAR)).1 (fetch_block s (addr2tag MAR)).2).tag
              rw [c6]
              exact hnone k hk hkv
            · rw [hset_ne l hli, hky l hl hli] at hlv ⊢
              exact h.tag_ne k l hk hl hkl hkv hlv
        · intro k hk hkv hkd
          simp only [List.length_set, c2] at hk
          simp only [entryAt_mk] at hkv hkd ⊢
          by_cases hki : k = (fetch_block s (addr2tag MAR)).2
          · subst hki
            rw [hset_self] at hkd
            exact absurd hkd (by simp)
          · rw [hset_ne k hki, hky k hk hki] at hkv hkd ⊢
            show ((fetch_block s (addr2tag MAR)).1.data_cache.set _ _).getD k []
              = (fetch_block s (addr2tag MAR)).1.data (entryAt s k).tag
            rw [getD_set_ne _ _ _ _ _ (fun hh => hki hh.symm)]
            rw [c8 k hki]
            have hbase := h.clean_eq k hk hkv hkd
            rcases c12 with hsame | ⟨hbv, hupd⟩
            · rw [hsame]
              exact hbase
            · rw [hupd]
              rw [Function.update_noteq]
              · exact hbase
              · exact h.tag_ne k (fetch_block s (addr2tag MAR)).2 hk
                  (by exact c1) hki hkv hbv
  · have heq : (cache_write s MAR MDR).2 = s := by
      simp [cache_write, hR]
    rw [heq]
    exact h

/-- Reading any position of a replicated list. -/
theorem getD_replicate {α : Type} (n i : ℕ) (a d : α) :
    (List.replicate n a).getD i d = if i < n then a else d := by
  induction n generalizing i with
  | zero => simp
  | succ m ih =>
      cases i with
      | zero => simp [List.replicate]
      | succ j =>
          simp only [List.replicate, List.getD_cons_succ, ih]
          exact if_congr (by omega) rfl rfl

/-- The cache produced by `initialize_system` satisfies the invariant for
any build with at least one cache block. -/
theorem inv_init (n : ℕ) (hn : 0 < n) : CacheInv (init_cache n) := by
  have hval : ∀ i, (entryAt (init_cache n) i).valid = false := by
    intro i
    show ((List.replicate n (⟨false, false, 0, 0⟩ : CacheEntry)).getD i default).valid = false
    rw [getD_replicate]
    by_cases hi : i < n
    · rw [if_pos hi]
    · rw [if_neg hi]
      rfl
  constructor
  · simp [init_cache]
  · simpa [init_cache] using hn
  · exact Nat.one_pos
  · intro i hi hv
    exact absurd hv (by rw [hval i]; decide)
  · intro i j hi hj hij hv hv'
    exact absurd hv (by rw [hval i]; decide)
  · intro i j hi hj hij hv hv'
    exact absurd hv (by rw [hval i]; decide)
  · intro i hi hv
    exact absurd hv (by rw [hval i]; decide)

/-- One client-level cache operation preserves the invariant. -/
theorem inv_apply_op (s : CacheState) (op : CacheOp) (h : CacheInv s) :
    CacheInv (apply_op s op) := by
  cases op with
  | read MAR => exact inv_cache_read s MAR 0 h
  | write MAR MDR => exact inv_cache_write s MAR MDR h
  | flush i => exact inv_write_block s i h

/-- Any sequence of client-level cache operations preserves the invariant. -/
theorem inv_apply_ops (s : CacheState) (ops : List CacheOp) (h : CacheInv s) :
    CacheInv (apply_ops s ops) := by
  induction ops generalizing s with
  | nil => exact h
  | cons op rest ih => exact ih (apply_op s op) (inv_apply_op s op h)

/-- Claim C9.  After every sequence of completed cache operations from the
initialized state (a build with `CACHE_BLOCKS = n ≥ 1`; fills and
evictions happen inside `cache_read`/`cache_write`/`write_block` exactly
as in the source), the reference counts of the valid cache entries are
each strictly below `current_ref_count` and pairwise distinct. -/
theorem ref_counts_distinct_and_bounded (n : ℕ) (hn : 0 < n) (ops : List CacheOp) :
    (∀ i, i < (apply_ops (init_cache n) ops).dict.length →
        (entryAt (apply_ops (init_cache n) ops) i).valid = true →
        (entryAt (apply_ops (init_cache n) ops) i).ref_count
          < (apply_ops (init_cache n) ops).current_ref_count)
    ∧ (∀ i j, i < (apply_ops (init_cache n) ops).dict.length →
        j < (apply_ops (init_cache n) ops).dict.length → i ≠ j →
        (entryAt (apply_ops (init_cache n) ops) i).valid = true →
        (entryAt (apply_ops (init_cache n) ops) j).valid = true →
        (entryAt (apply_ops (init_cache n) ops) i).ref_count
          ≠ (entryAt (apply_ops (init_cache n) ops) j).ref_count) := by
  have h := inv_apply_ops (init_cache n) ops (inv_init n hn)
  exact ⟨h.ref_lt, h.ref_ne⟩

/-- Claim C9 witness: two reads of distinct blocks on a two-block build
leave two valid entries with distinct stamps below the serial counter. -/
theorem ref_counts_distinct_and_bounded_witness :
    (entryAt (apply_ops (init_cache 2) [CacheOp.read 0, CacheOp.read 8]) 0).ref_count
      < (apply_ops (init_cache 2) [CacheOp.read 0, CacheOp.read 8]).current_ref_count
    ∧ (entryAt (apply_ops (init_cache 2) [CacheOp.read 0, CacheOp.read 8]) 0).ref_count
      ≠ (entryAt (apply_ops (init_cache 2) [CacheOp.read 0, CacheOp.read 8]) 1).ref_count := by
  have h := ref_counts_distinct_and_bounded 2 (by decide) [CacheOp.read 0, CacheOp.read 8]
  exact ⟨h.1 0 (by decide) (by decide),
         h.2 0 1 (by decide) (by decide) (by decide) (by decide) (by decide)⟩

/-- Claim C6.  After every sequence of cache operations from the
initialized state, every valid non-dirty cache entry's payload equals
data memory's block at the entry's tag, word for word; and the fill
(`fetch_block`) itself establishes exactly this equality with
`dirty = false`.  Only `cache_write` (which sets `dirty`) ever makes a
payload diverge from memory. -/
theorem valid_clean_entry_matches_memory (n : ℕ) (hn : 0 < n) (ops : List CacheOp) :
    (∀ i, i < (apply_ops (init_cache n) ops).dict.length →
        (entryAt (apply_ops (init_cache n) ops) i).valid = true →
        (entryAt (apply_ops (init_cache n) ops) i).dirty = false →
        (apply_ops (init_cache n) ops).data_cache.getD i []
          = (apply_ops (init_cache n) ops).data
              (entryAt (apply_ops (init_cache n) ops) i).tag)
    ∧ (∀ (s : CacheState) (tag : ℕ),
        s.data_cache.length = s.dict.length → 0 < s.dict.length →
        (entryAt (fetch_block s tag).1 (fetch_block s tag).2).dirty = false
        ∧ (fetch_block s tag).1.data_cache.getD (fetch_block s tag).2 []
            = (fetch_block s tag).1.data tag) := by
  refine ⟨(inv_apply_ops (init_cache n) ops (inv_init n hn)).clean_eq, ?_⟩
  intro s tag hlen hpos
  obtain ⟨c1, c2, c3, c4, c5, c6, c7, c8, c9, c10, c11, c12⟩ :=
    fetch_block_chars s tag hlen hpos
  exact ⟨c5, c9⟩

/-- Claim C6 witness: after one read on the default single-block build,
the resident clean entry's payload equals its memory block. -/
theorem valid_clean_entry_matches_memory_witness :
    (apply_ops (init_cache 1) [CacheOp.read 0]).data_cache.getD 0 []
      = (apply_ops (init_cache 1) [CacheOp.read 0]).data
          (entryAt (apply_ops (init_cache 1) [CacheOp.read 0]) 0).tag :=
  (valid_clean_entry_matches_memory 1 (by decide) [CacheOp.read 0]).1 0
    (by decide) (by decide) (by decide)

/-- A concrete two-entry cache state (a build with `CACHE_BLOCKS = 2`),
both entries valid, used to instantiate the eviction case of the fill
theorem. -/
def sampleCache : CacheState where
  dict := [⟨true, true, 5, 3⟩, ⟨true, false, 2, 7⟩]
  data_cache := [List.replicate 8 (1, 1), List.replicate 8 (2, 2)]
  data := fun _ => List.replicate 8 (0, 0)
  cache_hits := 0
  current_ref_count := 6

/-- Claim C4 witness: on `sampleCache` (all entries valid) the fill at tag
9 evicts the entry whose `ref_count` is minimal and re-tags it with the
requested block. -/
theorem fetch_block_first_invalid_or_lru_witness :
    (entryAt sampleCache (fetch_block sampleCache 9).2).ref_count
      ≤ (entryAt sampleCache 0).ref_count
    ∧ (entryAt (fetch_block sampleCache 9).1 (fetch_block sampleCache 9).2).tag = 9 := by
  have h := fetch_block_first_invalid_or_lru sampleCache 9 (by decide) (by decide) (by decide)
  exact ⟨(h.2.2.2.2.2.2.2.2 (by decide)).1 0 (by decide), h.2.2.2.1⟩

/-- A successful instruction fetch: both instruction bytes land in `IR`. -/
theorem fetch_instr_ok (m : Machine) (hpc : m.PC < CODE_SIZE)
    (hb0 : (m.code m.PC).1 < 256) (hb1 : (m.code m.PC).2 < 256) :
    fetch_instr m = (Phase.DECODE_INSTR,
      { m with MAR := m.PC,
               MDR := ((m.code m.PC).1 <<< 8) ||| (m.code m.PC).2,
               IR0 := (m.code m.PC).1,
               IR1 := (m.code m.PC).2 }) := by
  simp only [fetch_instr, if_pos hpc]
  rw [hi_byte _ _ hb1, lo_byte _ _ hb1]

/-- The program-counter arithmetic of a taken branch: `EXECUTE` latches
`PC + imm - 1` truncated to 16 bits and `WRITE_BACK` adds one, which is
`PC + imm` modulo `2 ^ 16`. -/
theorem stamp_pc (PC : ℕ) (lit : ℤ) :
    (toUShort ((PC : ℤ) + (toUShort lit : ℤ) - 1) + 1) % 65536
      = toUShort ((PC : ℤ) + lit) := by
  unfold toUShort
  omega

/-- Claim C5.  For every retired instruction (a full pass returning to
FETCH_INSTR), the program counter advances by exactly one for non-branch
instructions; a BRANCH jump (mode 0) yields `R[r1] + 1`, a taken
conditional branch yields `PC + imm`, and a not-taken one `PC + 1`, all
modulo `2 ^ 16`. -/
theorem retired_pc_advance (m m' : Machine)
    (hb : ∀ a, (m.code a).1 < 256 ∧ (m.code a).2 < 256)
    (hret : run_pass m = (Phase.FETCH_INSTR, m')) :
    (opcode (m.code m.PC).1 ≠ 7 → m'.PC = (m.PC + 1) % 65536)
    ∧ (opcode (m.code m.PC).1 = 7 → mode (m.code m.PC).1 = 0 →
        m'.PC = (m.registers.getD (get_reg1 (m.code m.PC).1 (m.code m.PC).2) 0 + 1) % 65536)
    ∧ (opcode (m.code m.PC).1 = 7 → 1 ≤ mode (m.code m.PC).1 → mode (m.code m.PC).1 ≤ 6 →
        (branch_taken (mode (m.code m.PC).1)
            (m.registers.getD (get_reg1 (m.code m.PC).1 (m.code m.PC).2) 0)
            (m.registers.getD 0 0) = true →
          m'.PC = toUShort ((m.PC : ℤ) + extract_literal (m.code m.PC).2))
        ∧ (branch_taken (mode (m.code m.PC).1)
            (m.registers.getD (get_reg1 (m.code m.PC).1 (m.code m.PC).2) 0)
            (m.registers.getD 0 0) = false →
          m'.PC = (m.PC + 1) % 65536)) := by
  by_cases hpc : m.PC < CODE_SIZE
  case neg =>
    have hbad : (run_pass m).1 = Phase.ILLEGAL_ADDRESS := by
      simp [run_pass, step, fetch_instr, hpc]
    rw [hret] at hbad
    exact Phase.noConfusion hbad
  case pos =>
  obtain ⟨hb0, hb1⟩ := hb m.PC
  have hf : fetch_instr m = (Phase.DECODE_INSTR,
      { m with MAR := m.PC,
               MDR := ((m.code m.PC).1 <<< 8) ||| (m.code m.PC).2,
               IR0 := (m.code m.PC).1,
               IR1 := (m.code m.PC).2 }) := fetch_instr_ok m hpc hb0 hb1
  have hreg2 : get_reg2 (m.code m.PC).2 ≠ 255 := by
    have h : ((m.code m.PC).2 >>> 2) &&& 0x0F ≤ 0x0F := Nat.and_le_right
    unfold get_reg2
    omega
  have hreg1 : get_reg1 (m.code m.PC).1 (m.code m.PC).2 ≠ 255 := by
    have h : ((((m.code m.PC).1 &&& 0x03) <<< 2) ||| ((m.code m.PC).2 >>> 6)) &&& 0x0F ≤ 0x0F :=
      Nat.and_le_right
    unfold get_reg1
    omega
  by_cases hop7 : opcode (m.code m.PC).1 = 7
  · by_cases hmd7 : mode (m.code m.PC).1 = 7
    · have hbad : (run_pass m).1 = Phase.ILLEGAL_OPCODE := by
        simp only [run_pass, step]
        rw [hf]
        simp [-List.getD_eq_getElem?_getD, -Nat.and_one_is_mod, -Nat.one_and_eq_mod_two, decode_instr, hop7, hmd7]
      rw [hret] at hbad
      exact Phase.noConfusion hbad
    · by_cases hmd0 : mode (m.code m.PC).1 = 0
      · -- jump
        by_cases hbc : m.branch_count + 1 > BRANCH_LIMIT
        · have hbad : (run_pass m).1 = Phase.INFINITE_LOOP := by
            simp only [run_pass, step]
            rw [hf]
            simp [-List.getD_eq_getElem?_getD, -Nat.and_one_is_mod, -Nat.one_and_eq_mod_two, decode_instr, fetch_operands, execute_instr, hop7, hmd7, hmd0, hbc]
          rw [hret] at hbad
          exact Phase.noConfusion hbad
        · have hPC : (run_pass m).2.PC =
              (m.registers.getD (get_reg1 (m.code m.PC).1 (m.code m.PC).2) 0 + 1) % 65536 := by
            simp only [run_pass, step]
            rw [hf]
            simp [-List.getD_eq_getElem?_getD, -Nat.and_one_is_mod, -Nat.one_and_eq_mod_two, decode_instr, fetch_operands, execute_instr, write_back, hop7, hmd7, hmd0, hbc]
          rw [hret] at hPC
          refine ⟨fun h => absurd hop7 h, fun _ _ => hPC, fun _ h1 _ => ?_⟩
          rw [hmd0] at h1
          exact absurd h1 (by decide)
      · -- conditional branch
        cases htaken : branch_taken (mode (m.code m.PC).1)
            (m.registers.getD (get_reg1 (m.code m.PC).1 (m.code m.PC).2) 0)
            (m.registers.getD 0 0) with
        | true =>
            by_cases hbc : m.branch_count + 1 > BRANCH_LIMIT
            · have hbad : (run_pass m).1 = Phase.INFINITE_LOOP := by
                simp only [run_pass, step]
                rw [hf]
                simp [-List.getD_eq_getElem?_getD, -Nat.and_one_is_mod, -Nat.one_and_eq_mod_two, decode_instr, fetch_operands, execute_instr, hop7, hmd7, hmd0, hbc, htaken]
              rw [hret] at hbad
              exact Phase.noConfusion hbad
            · have hPC : (run_pass m).2.PC =
                  toUShort ((m.PC : ℤ) + extract_literal (m.code m.PC).2) := by
                simp only [run_pass, step]
                rw [hf]
                simp [-List.getD_eq_getElem?_getD, -Nat.and_one_is_mod, -Nat.one_and_eq_mod_two, decode_instr, fetch_operands, execute_instr, write_back,
                      hop7, hmd7, hmd0, hbc, htaken, stamp_pc]
              rw [hret] at hPC
              refine ⟨fun h => absurd hop7 h, fun _ h0 => absurd h0 hmd0, fun _ _ _ => ?_⟩
              refine ⟨fun _ => hPC, fun hfq => ?_⟩
              exact absurd hfq (by decide)
        | false =>
            have hPC : (run_pass m).2.PC = (m.PC + 1) % 65536 := by
              simp only [run_pass, step]
              rw [hf]
              simp [-List.getD_eq_getElem?_getD, -Nat.and_one_is_mod, -Nat.one_and_eq_mod_two, decode_instr, fetch_operands, execute_instr, write_back,
                    hop7, hmd7, hmd0, htaken]
            rw [hret] at hPC
            refine ⟨fun h => absurd hop7 h, fun _ h0 => absurd h0 hmd0, fun _ _ _ => ?_⟩
            refine ⟨fun htq => ?_, fun _ => hPC⟩
            exact absurd htq (by decide)
  · by_cases hop5 : opcode (m.code m.PC).1 = 5
    · by_cases hmd2 : mode (m.code m.PC).1 &&& 0x02 = 0
      · by_cases hmd4 : mode (m.code m.PC).1 &&& 0x04 = 0
        · by_cases hmd1 : mode (m.code m.PC).1 &&& 0x01 = 0
          · -- MOVE literal to register (mode 0)
            have hPC : (run_pass m).2.PC = (m.PC + 1) % 65536 := by
              simp only [run_pass, step]
              rw [hf]
              simp [-List.getD_eq_getElem?_getD, -Nat.and_one_is_mod, -Nat.one_and_eq_mod_two, decode_instr, calculate_ea, fetch_operands, hreg1, hreg2, write_back,
                    hop5, hmd2, hmd4, hmd1]
            rw [hret] at hPC
            exact ⟨fun _ => hPC, fun h _ => absurd h hop7, fun h _ _ => absurd h hop7⟩
          · -- MOVE memory to register (mode 1): cache read
            by_cases hR : m.registers.getD (get_reg2 (m.code m.PC).2) 0
                < DATA_SIZE * BLOCK_SIZE * 2
            · have hPC : (run_pass m).2.PC = (m.PC + 1) % 65536 := by
                simp only [run_pass, step]
                rw [hf]
                simp [-List.getD_eq_getElem?_getD, -Nat.and_one_is_mod, -Nat.one_and_eq_mod_two, decode_instr, calculate_ea, fetch_operands, hreg1, hreg2, write_back, cache_read,
                      hop5, hmd2, hmd4, hmd1, hR]
              rw [hret] at hPC
              exact ⟨fun _ => hPC, fun h _ => absurd h hop7, fun h _ _ => absurd h hop7⟩
            · have hbad : (run_pass m).1 = Phase.ILLEGAL_ADDRESS := by
                simp only [run_pass, step]
                rw [hf]
                simp [-List.getD_eq_getElem?_getD, -Nat.and_one_is_mod, -Nat.one_and_eq_mod_two, decode_instr, calculate_ea, fetch_operands, hreg1, hreg2, cache_read,
                      hop5, hmd2, hmd4, hmd1, hR]
              rw [hret] at hbad
              exact Phase.noConfusion hbad
        · -- MOVE to memory (modes 4 and 5): cache write in WRITE_BACK
          by_cases hW : m.registers.getD (get_reg1 (m.code m.PC).1 (m.code m.PC).2) 0
              < DATA_SIZE * BLOCK_SIZE * 2 <;>
            by_cases hmd1 : mode (m.code m.PC).1 &&& 0x01 = 0
          · have hPC : (run_pass m).2.PC = (m.PC + 1) % 65536 := by
              simp only [run_pass, step]
              rw [hf]
              simp [-List.getD_eq_getElem?_getD, -Nat.and_one_is_mod, -Nat.one_and_eq_mod_two, decode_instr, calculate_ea, fetch_operands, hreg1, hreg2, write_back, cache_write,
                    hop5, hmd2, hmd4, hmd1, hW]
            rw [hret] at hPC
            exact ⟨fun _ => hPC, fun h _ => absurd h hop7, fun h _ _ => absurd h hop7⟩
          · have hPC : (run_pass m).2.PC = (m.PC + 1) % 65536 := by
              simp only [run_pass, step]
              rw [hf]
              simp [-List.getD_eq_getElem?_getD, -Nat.and_one_is_mod, -Nat.one_and_eq_mod_two, decode_instr, calculate_ea, fetch_operands, hreg1, hreg2, write_back, cache_write,
                    hop5, hmd2, hmd4, hmd1, hW]
            rw [hret] at hPC
            exact ⟨fun _ => hPC, fun h _ => absurd h hop7, fun h _ _ => absurd h hop7⟩
          · have hbad : (run_pass m).1 = Phase.ILLEGAL_ADDRESS := by
              simp only [run_pass, step]
              rw [hf]
              simp [-List.getD_eq_getElem?_getD, -Nat.and_one_is_mod, -Nat.one_and_eq_mod_two, decode_instr, calculate_ea, fetch_operands, hreg1, hreg2, write_back, cache_write,
                    hop5, hmd2, hmd4, hmd1, hW]
            rw [hret] at hbad
            exact Phase.noConfusion hbad
          · have hbad : (run_pass m).1 = Phase.ILLEGAL_ADDRESS := by
              simp only [run_pass, step]
              rw [hf]
              simp [-List.getD_eq_getElem?_getD, -Nat.and_one_is_mod, -Nat.one_and_eq_mod_two, decode_instr, calculate_ea, fetch_operands, hreg1, hreg2, write_back, cache_write,
                    hop5, hmd2, hmd4, hmd1, hW]
            rw [hret] at hbad
            exact Phase.noConfusion hbad
      · have hbad : (run_pass m).1 = Phase.ILLEGAL_OPCODE := by
          simp only [run_pass, step]
          rw [hf]
          simp [-List.getD_eq_getElem?_getD, -Nat.and_one_is_mod, -Nat.one_and_eq_mod_two, decode_instr, hop5, hmd2]
        rw [hret] at hbad
        exact Phase.noConfusion hbad
    · by_cases hopA : opcode (m.code m.PC).1 = 0 ∨ opcode (m.code m.PC).1 = 1
          ∨ opcode (m.code m.PC).1 = 2 ∨ opcode (m.code m.PC).1 = 3
          ∨ opcode (m.code m.PC).1 = 4 ∨ opcode (m.code m.PC).1 = 6
      · by_cases hmd : mode (m.code m.PC).1 > 1
        · have hbad : (run_pass m).1 = Phase.ILLEGAL_OPCODE := by
            simp only [run_pass, step]
            rw [hf]
            simp only [decode_instr]
            rw [if_pos hopA, if_pos hmd]
          rw [hret] at hbad
          exact Phase.noConfusion hbad
        · rcases hopA with h | h | h | h | h | h <;>
          · have hPC : (run_pass m).2.PC = (m.PC + 1) % 65536 := by
              simp only [run_pass, step]
              rw [hf]
              simp [-List.getD_eq_getElem?_getD, -Nat.and_one_is_mod, -Nat.one_and_eq_mod_two, decode_instr, fetch_operands, execute_instr, write_back, h, hmd]
            rw [hret] at hPC
            exact ⟨fun _ => hPC, fun hq _ => absurd hq hop7, fun hq _ _ => absurd hq hop7⟩
      · have hbad : (run_pass m).1 = Phase.ILLEGAL_OPCODE := by
          simp only [run_pass, step]
          rw [hf]
          simp only [decode_instr]
          rw [if_neg hopA, if_neg hop5, if_neg hop7]
        rw [hret] at hbad
        exact Phase.noConfusion hbad

/-- A machine whose single instruction is `ADD R1, #3` (bytes 00 43). -/
def addMachine : Machine :=
  { init_system with code := fun a => if a = 0 then (0x00, 0x43) else (0xFF, 0xFF) }

/-- Claim C5 witness: the `ADD R1, #3` machine retires its instruction
and the program counter advances by exactly one. -/
theorem retired_pc_advance_witness :
    (run_pass addMachine).1 = Phase.FETCH_INSTR
    ∧ (run_pass addMachine).2.PC = (addMachine.PC + 1) % 65536 := by
  have h1 : (run_pass addMachine).1 = Phase.FETCH_INSTR := by decide
  have hret : run_pass addMachine = (Phase.FETCH_INSTR, (run_pass addMachine).2) := by
    rw [← h1]
  have hcode : ∀ a, (addMachine.code a).1 < 256 ∧ (addMachine.code a).2 < 256 := by
    intro a
    by_cases ha : a = 0
    · simp [addMachine, init_system, ha]
    · simp [addMachine, init_system, ha, MEM_FILLER]
  have h := retired_pc_advance addMachine (run_pass addMachine).2 hcode hret
  exact ⟨h1, h.1 (by decide)⟩

/-- A machine whose every code word is `BRANCH mode 0, r1 = 0` (a jump
through register 0, bytes E0 00) with `R[0] = 0xFFFF`, so the jump at
address 0 transfers control back to address 0 forever. -/
def jumpMachine : Machine :=
  { init_system with code := fun _ => (0xE0, 0x00),
                     registers := 65535 :: List.replicate 15 0 }

/-- The steady state of `jumpMachine` after a pass: all latches hold the
values the jump leaves behind, and `branch_count` is `b`. -/
def jumpLatched (b : ℕ) : Machine :=
  { jumpMachine with MAR := 0, MDR := 0xE000, IR0 := 0xE0, IR1 := 0x00,
                     ALU_x := 65535, ALU_y := 0, ALU_z := 65535, branch_count := b }

/-- Five transitions are one full pass. -/
theorem step5_run (m : Machine) : (step^[5]) (Phase.FETCH_INSTR, m) = run_pass m := rfl

/-- The first pass of the self-jump machine reaches the steady state with
one executed branch. -/
theorem jump_first_pass : run_pass jumpMachine = (Phase.FETCH_INSTR, jumpLatched 1) := by
  have hA : (57344 : ℕ) &&& 255 = 0 := by decide
  have hB : (56 : ℕ) &&& 7 = 0 := by decide
  have hC : (224 : ℕ) &&& 3 = 0 := by decide
  simp only [run_pass, step]
  simp [-List.getD_eq_getElem?_getD, jumpMachine, jumpLatched, init_system, fetch_instr,
        decode_instr, fetch_operands, execute_instr, write_back, opcode, mode,
        extract_literal, toUShort, get_reg1, CODE_SIZE, BRANCH_LIMIT, MEM_FILLER, hA, hB, hC]

/-- Fetching in the steady state leaves the machine unchanged. -/
theorem jump_step_fetch (b : ℕ) :
    step (Phase.FETCH_INSTR, jumpLatched b) = (Phase.DECODE_INSTR, jumpLatched b) := by
  have hA : (57344 : ℕ) &&& 255 = 0 := by decide
  simp only [step]
  simp [-List.getD_eq_getElem?_getD, fetch_instr, jumpLatched, jumpMachine, init_system,
        CODE_SIZE, hA]

/-- Decoding the jump instruction. -/
theorem jump_step_decode (b : ℕ) :
    step (Phase.DECODE_INSTR, jumpLatched b) = (Phase.FETCH_OPERANDS, jumpLatched b) := by
  have hB : (56 : ℕ) &&& 7 = 0 := by decide
  simp only [step]
  simp [decode_instr, opcode, mode, jumpLatched, jumpMachine, init_system, hB]

/-- Operand fetch in the steady state leaves the machine unchanged. -/
theorem jump_step_ops (b : ℕ) :
    step (Phase.FETCH_OPERANDS, jumpLatched b) = (Phase.EXECUTE_INSTR, jumpLatched b) := by
  have hB : (56 : ℕ) &&& 7 = 0 := by decide
  have hC : (224 : ℕ) &&& 3 = 0 := by decide
  simp only [step]
  simp [-List.getD_eq_getElem?_getD, fetch_operands, opcode, mode, get_reg1, get_reg2,
        extract_literal, toUShort, jumpLatched, jumpMachine, init_system, hB, hC]

/-- Executing the jump increments the branch count; below the limit the
machine proceeds to WRITE_BACK. -/
theorem jump_step_exec (b : ℕ) (hb : b + 1 ≤ BRANCH_LIMIT) :
    step (Phase.EXECUTE_INSTR, jumpLatched b) = (Phase.WRITE_BACK, jumpLatched (b + 1)) := by
  have hnb : ¬(b + 1 > BRANCH_LIMIT) := by omega
  have hB : (56 : ℕ) &&& 7 = 0 := by decide
  simp only [step]
  simp [execute_instr, opcode, mode, jumpLatched, jumpMachine, init_system, hnb, hB]

/-- Executing the jump beyond the limit trips the infinite-loop guard. -/
theorem jump_step_exec_over (b : ℕ) (hb : b + 1 > BRANCH_LIMIT) :
    step (Phase.EXECUTE_INSTR, jumpLatched b) = (Phase.INFINITE_LOOP, jumpLatched (b + 1)) := by
  have hB : (56 : ℕ) &&& 7 = 0 := by decide
  simp only [step]
  simp [execute_instr, opcode, mode, jumpLatched, jumpMachine, init_system, hb, hB]

/-- Write-back of the jump target wraps the program counter to zero. -/
theorem jump_step_wb (b : ℕ) :
    step (Phase.WRITE_BACK, jumpLatched b) = (Phase.FETCH_INSTR, jumpLatched b) := by
  have hB : (56 : ℕ) &&& 7 = 0 := by decide
  have hC : (224 : ℕ) &&& 3 = 0 := by decide
  simp only [step]
  simp [-List.getD_eq_getElem?_getD, write_back, opcode, mode, get_reg1,
        jumpLatched, jumpMachine, init_system, hB, hC]

/-- Each further pass of the self-jump machine executes one more branch,
as long as the infinite-loop guard does not fire. -/
theorem jump_pass (b : ℕ) (hb : b + 1 ≤ BRANCH_LIMIT) :
    run_pass (jumpLatched b) = (Phase.FETCH_INSTR, jumpLatched (b + 1)) := by
  unfold run_pass
  rw [jump_step_fetch, jump_step_decode, jump_step_ops, jump_step_exec b hb, jump_step_wb]

/-- Iterating the passes of the self-jump machine accumulates the branch
count. -/
theorem jump_passes (k : ℕ) (hk : 1 + k ≤ BRANCH_LIMIT) :
    (step^[5 * k]) (Phase.FETCH_INSTR, jumpLatched 1)
      = (Phase.FETCH_INSTR, jumpLatched (1 + k)) := by
  induction k with
  | zero => simp
  | succ n ih =>
      have h5 : 5 * (n + 1) = 5 + 5 * n := by ring
      rw [h5, Function.iterate_add_apply, ih (by omega), step5_run,
          jump_pass (1 + n) (by omega), Nat.add_assoc]

/-- The pass that would execute branch `BRANCH_LIMIT + 1` stops in
EXECUTE_INSTR with `INFINITE_LOOP`. -/
theorem jump_final :
    (step^[4]) (Phase.FETCH_INSTR, jumpLatched BRANCH_LIMIT)
      = (Phase.INFINITE_LOOP, jumpLatched (BRANCH_LIMIT + 1)) := by
  have h4 : ∀ pm : Phase × Machine, (step^[4]) pm = step (step (step (step pm))) :=
    fun pm => rfl
  rw [h4, jump_step_fetch, jump_step_decode, jump_step_ops,
      jump_step_exec_over BRANCH_LIMIT (by omega)]

/-- Claim C8.  Every executed jump and every taken conditional branch
increments `branch_count` by exactly one and EXECUTE_INSTR reports
`INFINITE_LOOP` exactly when the new count exceeds `BRANCH_LIMIT`; a
not-taken branch and every non-branch instruction leave the count
unchanged and never report `INFINITE_LOOP`.  Consequently the self-jump
program reaches `INFINITE_LOOP` with `branch_count = BRANCH_LIMIT + 1`,
i.e. on its 1,000,001-st branch execution. -/
theorem branch_count_guard :
    (∀ m : Machine, opcode m.IR0 = 7 →
        (mode m.IR0 = 0 ∨ branch_taken (mode m.IR0) m.ALU_x (m.registers.getD 0 0) = true) →
        (execute_instr m).2.branch_count = m.branch_count + 1
        ∧ ((execute_instr m).1 = Phase.INFINITE_LOOP ↔ m.branch_count + 1 > BRANCH_LIMIT))
    ∧ (∀ m : Machine, opcode m.IR0 = 7 → mode m.IR0 ≠ 0 →
        branch_taken (mode m.IR0) m.ALU_x (m.registers.getD 0 0) = false →
        (execute_instr m).2.branch_count = m.branch_count
        ∧ (execute_instr m).1 = Phase.WRITE_BACK)
    ∧ (∀ m : Machine, opcode m.IR0 ≠ 7 →
        (execute_instr m).2.branch_count = m.branch_count
        ∧ (execute_instr m).1 = Phase.WRITE_BACK)
    ∧ (∃ N : ℕ, ∃ mfin : Machine,
        (step^[N]) (Phase.FETCH_INSTR, jumpMachine) = (Phase.INFINITE_LOOP, mfin)
        ∧ mfin.branch_count = BRANCH_LIMIT + 1) := by
  refine ⟨?_, ?_, ?_, ?_⟩
  · intro m hop hj
    unfold execute_instr
    rcases hj with h0 | ht
    · simp only [-List.getD_eq_getElem?_getD, hop]
      simp [-List.getD_eq_getElem?_getD, h0]
      by_cases hc : m.branch_count + 1 > BRANCH_LIMIT
      · simp [hc]
      · simp [hc]
    · by_cases hm0 : mode m.IR0 = 0
      · simp only [-List.getD_eq_getElem?_getD, hop]
        simp [-List.getD_eq_getElem?_getD, hm0]
        by_cases hc : m.branch_count + 1 > BRANCH_LIMIT
        · simp [hc]
        · simp [hc]
      · simp only [-List.getD_eq_getElem?_getD, hop]
        simp [-List.getD_eq_getElem?_getD, hm0, ht]
        by_cases hc : m.branch_count + 1 > BRANCH_LIMIT
        · simp [hc]
        · simp [hc]
  · intro m hop h0 ht
    unfold execute_instr
    simp only [-List.getD_eq_getElem?_getD, hop]
    simp [-List.getD_eq_getElem?_getD, h0, ht]
  · intro m hop
    unfold execute_instr
    by_cases h0 : opcode m.IR0 = 0
    · simp [h0]
    · by_cases h1 : opcode m.IR0 = 1
      · simp [h0, h1]
      · by_cases h2 : opcode m.IR0 = 2
        · simp [h0, h1, h2]
        · by_cases h3 : opcode m.IR0 = 3
          · simp [h0, h1, h2, h3]
          · by_cases h4 : opcode m.IR0 = 4
            · simp [h0, h1, h2, h3, h4]
            · by_cases h6 : opcode m.IR0 = 6
              · simp [h0, h1, h2, h3, h4, h6]
              · simp [h0, h1, h2, h3, h4, h6, hop]
  · refine ⟨4 + (5 * 999999 + 5), jumpLatched (BRANCH_LIMIT + 1), ?_, rfl⟩
    rw [Function.iterate_add_apply, Function.iterate_add_apply, step5_run,
        jump_first_pass, jump_passes 999999 (by norm_num [BRANCH_LIMIT])]
    have h1M : 1 + 999999 = BRANCH_LIMIT := by norm_num [BRANCH_LIMIT]
    rw [h1M, jump_final]

/-- Claim C8 witness: executing the jump instruction once from a zero
branch count increments the count to one and does not trip the guard. -/
theorem branch_count_guard_witness :
    (execute_instr (jumpLatched 0)).2.branch_count = (jumpLatched 0).branch_count + 1
    ∧ ((execute_instr (jumpLatched 0)).1 = Phase.INFINITE_LOOP
        ↔ (jumpLatched 0).branch_count + 1 > BRANCH_LIMIT) :=
  branch_count_guard.1 (jumpLatched 0) (by decide) (Or.inl (by decide))

/-- Claim C1.  The data-memory range check of `cache_read`/`cache_write`
admits `MAR < DATA_SIZE * BLOCK_SIZE * WORD_SIZE = 2048`.  The access at
`MAR = 2046` indeed passes the check (no `ILLEGAL_ADDRESS`), and any `MAR`
at or beyond 2048 is rejected with the state unchanged — but the block
index computed for `MAR = 2046` is `2046 / BLOCK_SIZE = 255`, which does
NOT lie within the `DATA_SIZE = 128` blocks of the data array: the check
admits twice the addressable data memory, refuting the claim that the
admitted block indices stay in bounds. -/
theorem range_check_admits_oob :
    DATA_SIZE * BLOCK_SIZE * WORD_SIZE = 2048
    ∧ (cache_read (init_cache CACHE_BLOCKS) 2046 0).1 = Phase.WRITE_BACK
    ∧ (cache_write (init_cache CACHE_BLOCKS) 2046 0).1 = Phase.FETCH_INSTR
    ∧ addr2tag 2046 = 255
    ∧ DATA_SIZE = 128
    ∧ ¬ addr2tag 2046 < DATA_SIZE
    ∧ (cache_read (init_cache CACHE_BLOCKS) 2048 0).1 = Phase.ILLEGAL_ADDRESS
    ∧ (cache_read (init_cache CACHE_BLOCKS) 2048 0).2.1 = init_cache CACHE_BLOCKS
    ∧ (cache_write (init_cache CACHE_BLOCKS) 2048 0).1 = Phase.ILLEGAL_ADDRESS
    ∧ (cache_write (init_cache CACHE_BLOCKS) 2048 0).2 = init_cache CACHE_BLOCKS := by
  refine ⟨by decide, by decide, by decide, by decide, by decide, by decide, rfl, rfl, rfl, rfl⟩

/-- Claim C2.  The assembler's `Instruction::encode` masks the immediate
with `0x03`, so only its low two bits reach the object code: encoding
`ADD R0, #4` (opcode 0, mode 0, registers 0, immediate 4 — a legal 6-bit
literal) produces the bytes `00 00`, from which the simulator's
`extract_literal` recovers 0, not 4.  The remaining fields do round-trip
on this input; the literal does not, refuting the round-trip law. -/
theorem encode_literal_mask_breaks_roundtrip :
    encode 0 0 0 0 4 = (0x00, 0x00)
    ∧ opcode (encode 0 0 0 0 4).1 = 0
    ∧ mode (encode 0 0 0 0 4).1 = 0
    ∧ get_reg1 (encode 0 0 0 0 4).1 (encode 0 0 0 0 4).2 = 0
    ∧ get_reg2 (encode 0 0 0 0 4).2 = 0
    ∧ extract_literal (encode 0 0 0 0 4).2 = 0
    ∧ extract_literal (encode 0 0 0 0 4).2 ≠ 4 := by
  refine ⟨by decide, by decide, by decide, by decide, by decide, by decide, by decide⟩

/-- Claim C3, counterexample.  The instruction byte `0xB4` encodes a MOVE
(opcode 5) with mode field 5; `decode_instr` does not reject it as an
illegal opcode but forwards it to CALCULATE_EA. -/
theorem move_mode5_not_rejected :
    opcode 0xB4 = 5 ∧ mode 0xB4 = 5
    ∧ decode_instr 0xB4 = Phase.CALCULATE_EA
    ∧ decode_instr 0xB4 ≠ Phase.ILLEGAL_OPCODE := by
  refine ⟨by decide, by decide, by decide, by decide⟩

/-- Claim C3, amended.  For a MOVE instruction (opcode 5) the decoder
rejects exactly the modes with bit 1 set (modes 2, 3, 6, 7); every other
mode — including mode 5 — is forwarded to CALCULATE_EA. -/
theorem move_decode_rejects_iff_bit1 (IR0 : ℕ) (h : opcode IR0 = 5) :
    (decode_instr IR0 = Phase.ILLEGAL_OPCODE ↔ mode IR0 &&& 0x02 ≠ 0)
    ∧ (mode IR0 &&& 0x02 = 0 → decode_instr IR0 = Phase.CALCULATE_EA) := by
  unfold decode_instr
  rw [h]
  norm_num
  by_cases hb : mode IR0 &&& 0x02 = 0
  · simp [hb]
  · simp [hb]

/-- Claim C3, amended, witness at the concrete MOVE mode-5 byte `0xB4`. -/
theorem move_decode_rejects_iff_bit1_witness :
    opcode 0xB4 = 5
    ∧ ((decode_instr 0xB4 = Phase.ILLEGAL_OPCODE ↔ mode 0xB4 &&& 0x02 ≠ 0)
        ∧ (mode 0xB4 &&& 0x02 = 0 → decode_instr 0xB4 = Phase.CALCULATE_EA)) :=
  ⟨by decide, move_decode_rejects_iff_bit1 0xB4 (by decide)⟩

/-- Claim C10.  Both register indices a phase can use — `get_reg1`, and
the `(IR[1] >> 2) & 0x0F` index `get_reg2` used by CALCULATE_EA and
FETCH_OPERANDS — are masked to four bits, hence below `REGISTERS = 16`,
for every possible pair of instruction bytes. -/
theorem register_indices_lt_registers (IR0 IR1 : ℕ) :
    get_reg1 IR0 IR1 < REGISTERS ∧ get_reg2 IR1 < REGISTERS := by
  constructor
  · have h : (((IR0 &&& 0x03) <<< 2) ||| (IR1 >>> 6)) &&& 0x0F ≤ 0x0F := Nat.and_le_right
    unfold get_reg1 REGISTERS
    omega
  · have h : (IR1 >>> 2) &&& 0x0F ≤ 0x0F := Nat.and_le_right
    unfold get_reg2 REGISTERS
    omega

/-- Claim C7.  Code memory is filled at startup with the `MEM_FILLER`
byte `0xFF` in both byte positions of every word, the sentinel word
decodes to `ILLEGAL_OPCODE`, and a full pass fetched from any in-range
address holding the sentinel word terminates the state machine with
`ILLEGAL_OPCODE`: running past the loaded program halts deterministically. -/
theorem sentinel_decodes_illegal_and_halts :
    (∀ a : ℕ, init_system.code a = (MEM_FILLER, MEM_FILLER))
    ∧ decode_instr MEM_FILLER = Phase.ILLEGAL_OPCODE
    ∧ ∀ m : Machine, m.PC < CODE_SIZE → m.code m.PC = (MEM_FILLER, MEM_FILLER) →
        (run_pass m).1 = Phase.ILLEGAL_OPCODE := by
  refine ⟨fun a => rfl, by decide, ?_⟩
  intro m hpc hcode
  simp only [run_pass, step, fetch_instr, if_pos hpc, hcode]
  have h63 : (63 : ℕ) &&& 7 = 7 := by decide
  simp [decode_instr, opcode, mode, MEM_FILLER, h63]

/-- Claim C7 witness: the freshly initialized system (program counter 0,
nothing loaded) halts with an illegal opcode on its first pass. -/
theorem sentinel_decodes_illegal_and_halts_witness :
    init_system.PC < CODE_SIZE
    ∧ init_system.code init_system.PC = (MEM_FILLER, MEM_FILLER)
    ∧ (run_pass init_system).1 = Phase.ILLEGAL_OPCODE :=
  ⟨by decide, rfl,
    sentinel_decodes_illegal_and_halts.2.2 init_system (by decide) rfl⟩

end Caching
